import Mathlib

/-!
Verification of the areole command-language lexer and parser
(src/token.rs, src/span.rs, src/parser.rs, src/ast.rs).

The lexer is a shallow embedding of the logos-generated scanner over the
token patterns declared on `Kind` in src/token.rs: at each position the
scanner skips `[ \t\r]+`, computes every pattern's longest match, and picks
the longest one, breaking length ties by pattern priority (explicit
`priority = n` attributes, otherwise the logos default of twice the
pattern's shortest match length).  Source text is modelled as `List Char`
and spans as character offsets; every input studied here is ASCII, where
character offsets and the byte offsets of src/span.rs coincide.

Notes on fidelity:
* `Kind::Float(f32)` is embedded carrying its raw lexeme instead of the
  decoded f32 (no claim inspects a float value; `parse::<f32>` never fails
  on text matched by `-?[0-9]*\.[0-9]+`).
* `Kind::Int(i32)` is embedded as a mathematical integer together with the
  i32 range check performed by `parse::<i32>`, whose overflow failure is
  `LexErrorItem::InvalidInt`.
* The `#[regex("", priority = 1)]` alternative on `Kind::RightBrace` can
  only produce a zero-length match; a zero-length match is never a longest
  match against any nonempty pattern and logos never emits zero-length
  tokens, so it contributes nothing and is omitted.
-/

namespace Areole

/-- src/span.rs: half-open offset range `\x7bstart, end\x7d`.  The `end`
field is called `stop` because `end` is a Lean keyword. -/
structure Span where
  start : Nat
  stop : Nat
deriving DecidableEq, Repr

/-- src/token.rs `LexErrorItem`; the std error payloads carry no
information used anywhere, so the variants are nullary here. -/
inductive LexErrorItem where
  | invalidFloat
  | invalidInt
  | invalidBool
  | unknown
deriving DecidableEq, Repr

/-- src/token.rs `Kind<'src>`. -/
inductive Kind where
  | eof
  | formatSelection
  /-- `f32` value abstracted by its lexeme text. -/
  | float (raw : String)
  | int (value : Int)
  | string (s : String)
  | ident (s : String)
  | path (s : String)
  | slash
  | rightBrace
  | leftBrace
  | leftBracket
  | rightBracket
  | selector
  | comma
  | neg
  | not
  | limit
  | assign
  | equal
  | addAssign
  | subAssign
  | mulAssign
  | divAssign
  | gt
  | lt
  | wildcard
  | bool (b : Bool)
  | relativeCoordinate
  | localCoordinate
  | comment (s : String)
  | lineBreak
  | colon
deriving DecidableEq, Repr

/-- src/token.rs `Token<'src>`. -/
structure Token where
  kind : Kind
  span : Span
deriving DecidableEq, Repr

/-- src/token.rs `LexError`. -/
structure LexError where
  span : Span
  err : LexErrorItem
deriving DecidableEq, Repr

/-- `logos(skip r"[ \t\r]+")`. -/
def whitespaceChar (c : Char) : Bool :=
  c = ' ' || c = '\t' || c = '\r'

/-- The character class `[a-z_.A-Z0-9]` of the `Ident` pattern. -/
def identChar (c : Char) : Bool :=
  c.isLower || c.isUpper || c.isDigit || c = '_' || c = '.'

/-- The class `[a-z_:.A-Z0-9]` of the first `Path` segment. -/
def pathChar1 (c : Char) : Bool :=
  identChar c || c = ':'

/-- The class `[a-z_:.A-Z0-9/]` of the `Path` remainder. -/
def pathChar2 (c : Char) : Bool :=
  pathChar1 c || c = '/'

/-- Length of the leading run of decimal digits. -/
def digitsLen (cs : List Char) : Nat :=
  (cs.takeWhile Char.isDigit).length

/-- Longest match of `[0-9]*\.[0-9]+` at the start of `cs`. -/
def floatBody (cs : List Char) : Option Nat :=
  if (cs.drop (digitsLen cs)).head? = some '.' then
    if 0 < digitsLen (cs.drop (digitsLen cs + 1)) then
      some (digitsLen cs + 1 + digitsLen (cs.drop (digitsLen cs + 1)))
    else none
  else none

/-- Longest match of the `Float` pattern `-?[0-9]*\.[0-9]+`. -/
def matchFloat (cs : List Char) : Option Nat :=
  match cs with
  | c :: rest => if c = '-' then (floatBody rest).map (· + 1) else floatBody cs
  | [] => none

/-- Longest match of the `Int` pattern `-?[0-9]+`. -/
def matchInt (cs : List Char) : Option Nat :=
  match cs with
  | c :: rest =>
    if c = '-' then
      if 0 < digitsLen rest then some (1 + digitsLen rest) else none
    else if 0 < digitsLen cs then some (digitsLen cs) else none
  | [] => none

/-- Longest match of the `String` pattern `"[^"]+"`. -/
def matchString (cs : List Char) : Option Nat :=
  match cs with
  | c :: rest =>
    if c = '"' ∧ 0 < (rest.takeWhile (fun x => x ≠ '"')).length ∧
        (rest.drop (rest.takeWhile (fun x => x ≠ '"')).length).head? = some '"'
    then some ((rest.takeWhile (fun x => x ≠ '"')).length + 2)
    else none
  | [] => none

/-- Longest match of the `Ident` pattern `[a-z_.A-Z0-9]+`. -/
def matchIdent (cs : List Char) : Option Nat :=
  let n := (cs.takeWhile identChar).length
  if 0 < n then some n else none

/-- Longest match of the `Path` pattern
`[a-z_:.A-Z0-9]+/[a-z_:.A-Z0-9/]+`: a maximal first segment (its class
excludes `/`, so the match's first `/` ends it), the separator, then a
maximal run of the remainder class, which must be nonempty. -/
def matchPath (cs : List Char) : Option Nat :=
  let p := (cs.takeWhile pathChar1).length
  if 0 < p ∧ (cs.drop p).head? = some '/' then
    let q := ((cs.drop (p + 1)).takeWhile pathChar2).length
    if 0 < q then some (p + 1 + q) else none
  else none

/-- Longest match of the `Bool` pattern `(true)|(false)`. -/
def matchBool (cs : List Char) : Option Nat :=
  if ('t' :: 'r' :: 'u' :: 'e' :: []).isPrefixOf cs then some 4
  else if ('f' :: 'a' :: 'l' :: 's' :: 'e' :: []).isPrefixOf cs then some 5
  else none

/-- Longest match of the `Comment` pattern `#[^\n]+`. -/
def matchComment (cs : List Char) : Option Nat :=
  match cs with
  | c :: rest =>
    if c = '#' ∧ 0 < (rest.takeWhile (fun x => x ≠ '\n')).length
    then some (1 + (rest.takeWhile (fun x => x ≠ '\n')).length)
    else none
  | [] => none

/-- Longest match of the `FormatSelection` pattern `§.` (`.` matches any
character except a newline). -/
def matchFormat (cs : List Char) : Option Nat :=
  match cs with
  | c1 :: c2 :: _ => if c1 = '§' ∧ c2 ≠ '\n' then some 2 else none
  | _ => none

/-- Decode of the `Comment` callback
`lex.slice().trim_start_matches("#").trim()`: drop every leading `#`,
then trim whitespace from both ends (`str::trim`; `Char.isWhitespace`
agrees with Rust's `char::is_whitespace` on the ASCII whitespace that can
occur inside a comment lexeme). -/
def commentValue (slice : List Char) : String :=
  String.mk
    ((((slice.dropWhile (fun c => c = '#')).dropWhile
      Char.isWhitespace).reverse.dropWhile Char.isWhitespace).reverse)

/-- Decode of the `Int` callback `lex.slice().parse::<i32>()`, sign and
digit fold.  The slice always matches `-?[0-9]+`. -/
def decodeDigits (ds : List Char) : Nat :=
  ds.foldl (fun a c => a * 10 + (c.toNat - 48)) 0

/-- Signed value of an `Int` lexeme. -/
def decodeInt (slice : List Char) : Int :=
  match slice with
  | c :: ds =>
    if c = '-' then -(decodeDigits ds : Int) else (decodeDigits (c :: ds) : Int)
  | [] => (decodeDigits [] : Int)

/-- `parse::<i32>` result: the value when it fits in `i32`, otherwise the
overflow error that becomes `LexErrorItem::InvalidInt`. -/
def decodeIntKind (slice : List Char) : Except LexErrorItem Kind :=
  let v := decodeInt slice
  if -2147483648 ≤ v ∧ v ≤ 2147483647 then .ok (.int v) else .error .invalidInt

/-- A lexing candidate: match length, pattern priority, decoded result. -/
abbrev Cand := Nat × Nat × Except LexErrorItem Kind

/-- Candidate from an optional pattern match. -/
def optCand (m : Option Nat) (prio : Nat) (f : List Char → Except LexErrorItem Kind)
    (cs : List Char) : List Cand :=
  match m with
  | some n => [(n, prio, f (cs.take n))]
  | none => []

/-- The `#[token]` literal patterns of `Kind` with their priorities
(twice the literal's length). -/
def litTable : List (List Char × Nat × Kind) :=
  [ (['/'], 2, .slash),
    (['}'], 2, .rightBrace),
    (['{'], 2, .leftBrace),
    (['['], 2, .leftBracket),
    ([']'], 2, .rightBracket),
    (['@'], 2, .selector),
    ([','], 2, .comma),
    (['-'], 2, .neg),
    (['!'], 2, .not),
    (['.', '.'], 4, .limit),
    (['='], 2, .assign),
    (['<', '>'], 4, .equal),
    (['+', '='], 4, .addAssign),
    (['-', '='], 4, .subAssign),
    (['*', '='], 4, .mulAssign),
    (['/', '='], 4, .divAssign),
    (['>'], 2, .gt),
    (['<'], 2, .lt),
    (['*'], 2, .wildcard),
    (['~'], 2, .relativeCoordinate),
    (['^'], 2, .localCoordinate),
    (['\n'], 2, .lineBreak),
    ([':'], 2, .colon) ]

/-- Candidates contributed by the literal token patterns. -/
def litCands (cs : List Char) : List Cand :=
  litTable.filterMap fun e =>
    if e.1.isPrefixOf cs then some (e.1.length, e.2.1, .ok e.2.2) else none

/-- All pattern candidates at the start of `cs`.  Priorities: `Float` and
`Int` are explicitly 3, `Path` explicitly 1; the rest are the logos
defaults of twice the shortest match length (`String` 6, `Ident` 2,
`Bool` 8, `Comment` 4, `FormatSelection` 4). -/
def candidates (cs : List Char) : List Cand :=
  optCand (matchFormat cs) 4 (fun _ => .ok .formatSelection) cs ++
  optCand (matchFloat cs) 3 (fun sl => .ok (.float (String.mk sl))) cs ++
  optCand (matchInt cs) 3 decodeIntKind cs ++
  optCand (matchString cs) 6 (fun sl => .ok (.string (String.mk sl))) cs ++
  optCand (matchIdent cs) 2 (fun sl => .ok (.ident (String.mk sl))) cs ++
  optCand (matchPath cs) 1 (fun sl => .ok (.path (String.mk sl))) cs ++
  optCand (matchBool cs) 8
    (fun sl => .ok (.bool (sl = ['t', 'r', 'u', 'e']))) cs ++
  optCand (matchComment cs) 4 (fun sl => .ok (.comment (commentValue sl))) cs ++
  litCands cs

/-- Keep the better of two candidates: longer match first, then higher
priority, first-come on a full tie (logos rejects full ties at compile
time, so the tiebreak is never exercised). -/
def pickBetter (a b : Cand) : Cand :=
  if b.1 < a.1 then a
  else if a.1 < b.1 then b
  else if b.2.1 < a.2.1 then a
  else if a.2.1 < b.2.1 then b
  else a

/-- The winning candidate, if any pattern matches. -/
def best : List Cand → Option Cand
  | [] => none
  | c :: rest =>
    match best rest with
    | none => some c
    | some b => some (pickBetter c b)

/-- One lexer step at absolute position `pos`: skip whitespace, then emit
the winning pattern's token or error, or an `Unknown` error consuming one
character when no pattern matches.  Returns the emitted item and the
total number of characters consumed; `none` when input is exhausted. -/
def lexStep (cs : List Char) (pos : Nat) : Option (Except LexError Token × Nat) :=
  match cs.drop (cs.takeWhile whitespaceChar).length with
  | [] => none
  | c :: r =>
    match best (candidates (c :: r)) with
    | some (n, _, .ok k) =>
      some (.ok ⟨k, ⟨pos + (cs.takeWhile whitespaceChar).length,
        pos + (cs.takeWhile whitespaceChar).length + n⟩⟩,
        (cs.takeWhile whitespaceChar).length + n)
    | some (n, _, .error e) =>
      some (.error ⟨⟨pos + (cs.takeWhile whitespaceChar).length,
        pos + (cs.takeWhile whitespaceChar).length + n⟩, e⟩,
        (cs.takeWhile whitespaceChar).length + n)
    | none =>
      some (.error ⟨⟨pos + (cs.takeWhile whitespaceChar).length,
        pos + (cs.takeWhile whitespaceChar).length + 1⟩, .unknown⟩,
        (cs.takeWhile whitespaceChar).length + 1)

/-- An item of the token stream: `Result<Token, LexError>`. -/
abbrev LexItem := Except LexError Token

/-- The lazy token sequence of `TokenIter`, realised eagerly.  `fuel`
bounds the number of steps; each step consumes at least one character, so
`cs.length + 1` is always enough. -/
def lexGo : Nat → List Char → Nat → List LexItem
  | 0, _, _ => []
  | fuel + 1, cs, pos =>
    match lexStep cs pos with
    | none => []
    | some (item, n) => item :: lexGo fuel (cs.drop n) (pos + n)

/-- Tokenize a whole source text (`Kind::lexer(src)` through
`TokenIter`). -/
def lex (s : String) : List LexItem :=
  lexGo (s.length + 1) s.toList 0

/-! ## AST (src/ast.rs)

`Cow<'src, str>` fields become `String`; `Box` is dropped.  The generic
`Table<'src, K>` is only ever instantiated at `K = Ident` (inside
`ExprTarget`), so it is embedded monomorphically as `TableIdent`.  The
recursive expression family is one mutual block of single-constructor
inductives, with the Rust struct projections defined below it. -/

/-- src/ast.rs `Ident<'src>`. -/
structure Ident where
  value : String
  span : Span
deriving DecidableEq, Repr

/-- src/ast.rs `LitInt`. -/
structure LitInt where
  value : Int
  span : Span
deriving DecidableEq, Repr

/-- src/ast.rs `LitFloat`, the f32 abstracted by its lexeme. -/
structure LitFloat where
  value : String
  span : Span
deriving DecidableEq, Repr

/-- src/ast.rs `LitString<'src>`. -/
structure LitString where
  value : String
  span : Span
deriving DecidableEq, Repr

/-- src/ast.rs `LitBool`. -/
structure LitBool where
  value : Bool
  span : Span
deriving DecidableEq, Repr

/-- src/ast.rs `LitPath<'src>`. -/
structure LitPath where
  value : String
  span : Span
deriving DecidableEq, Repr

/-- src/ast.rs `Lit<'src>`. -/
inductive Lit where
  | int (i : LitInt)
  | string (s : LitString)
  | bool (b : LitBool)
  | float (f : LitFloat)
  | path (p : LitPath)
deriving DecidableEq, Repr

/-- src/ast.rs `UnOp<'src>` (the `Neg` variant is commented out in the
source). -/
inductive UnOp where
  | not (tok : Token)
  | localCoordinate (tok : Token)
  | relativeCoordinate (tok : Token)
  | formatSelection (tok : Token)
deriving DecidableEq, Repr

/-- src/ast.rs `ExprRange<'src>`; `end` is called `stop`. -/
structure ExprRange where
  start : Option LitInt
  limit : Token
  stop : Option LitInt
deriving DecidableEq, Repr

mutual

/-- src/ast.rs `Expr<'src>`. -/
inductive Expr where
  | lit (l : Lit)
  | urnary (u : ExprUrnary)
  | range (r : ExprRange)
  | map (m : ExprMap)
  | target (t : ExprTarget)

/-- src/ast.rs `ExprUrnary<'src>`: fields `op`, `expr`. -/
inductive ExprUrnary where
  | mk (op : UnOp) (expr : Option Expr)

/-- src/ast.rs `ExprMap<'src>`: fields `curlies`, `fields`. -/
inductive ExprMap where
  | mk (curlies : Token × Token) (fields : List ExprMapField)

/-- src/ast.rs `ExprMapField<'src>`: fields `key`, `colon`, `value`,
`comma`. -/
inductive ExprMapField where
  | mk (key : LitString) (colon : Token) (value : Expr) (comma : Option Token)

/-- src/ast.rs `ExprTarget<'src>`: fields `select`, `target`, `params`. -/
inductive ExprTarget where
  | mk (select : Token) (target : Ident) (params : Option TableIdent)

/-- src/ast.rs `Table<'src, Ident<'src>>`: fields `brackets`, `fields`. -/
inductive TableIdent where
  | mk (brackets : Token × Token) (fields : List TableFieldIdent)

/-- src/ast.rs `TableField<'src, Ident<'src>>`: fields `key`, `eq`,
`value`, `comma`. -/
inductive TableFieldIdent where
  | mk (key : Ident) (eq : Token) (value : Option Expr) (comma : Option Token)

end

/-- Projection: `ExprUrnary.op`. -/
def ExprUrnary.op : ExprUrnary → UnOp
  | .mk o _ => o

/-- Projection: `ExprUrnary.expr`. -/
def ExprUrnary.expr : ExprUrnary → Option Expr
  | .mk _ e => e

/-- Projection: `ExprMap.curlies`. -/
def ExprMap.curlies : ExprMap → Token × Token
  | .mk c _ => c

/-- Projection: `ExprMap.fields`. -/
def ExprMap.fields : ExprMap → List ExprMapField
  | .mk _ f => f

/-- Projection: `ExprTarget.select`. -/
def ExprTarget.select : ExprTarget → Token
  | .mk s _ _ => s

/-- Projection: `ExprTarget.target`. -/
def ExprTarget.target : ExprTarget → Ident
  | .mk _ t _ => t

/-- Projection: `ExprTarget.params`. -/
def ExprTarget.params : ExprTarget → Option TableIdent
  | .mk _ _ p => p

/-- Projection: `TableIdent.brackets`. -/
def TableIdent.brackets : TableIdent → Token × Token
  | .mk b _ => b

/-- Projection: `TableIdent.fields`. -/
def TableIdent.fields : TableIdent → List TableFieldIdent
  | .mk _ f => f

/-- Projection: `TableFieldIdent.key`. -/
def TableFieldIdent.key : TableFieldIdent → Ident
  | .mk k _ _ _ => k

/-- Projection: `TableFieldIdent.eq`. -/
def TableFieldIdent.eq : TableFieldIdent → Token
  | .mk _ e _ _ => e

/-- Projection: `TableFieldIdent.value`. -/
def TableFieldIdent.value : TableFieldIdent → Option Expr
  | .mk _ _ v _ => v

/-- Projection: `TableFieldIdent.comma`. -/
def TableFieldIdent.comma : TableFieldIdent → Option Token
  | .mk _ _ _ c => c

/-- src/ast.rs `StmtComment<'src>`. -/
structure StmtComment where
  value : String
  span : Span
deriving DecidableEq, Repr

/-- src/ast.rs `StmtCommand<'src>`. -/
structure StmtCommand where
  slash : Option Token
  ident : Ident
  arguments : Option (List Expr)

/-- src/ast.rs `Stmt<'src>`. -/
inductive Stmt where
  | command (c : StmtCommand)
  | comment (c : StmtComment)

/-- src/ast.rs `Function<'src>` (the `Program` of the spec). -/
structure Function where
  statements : List Stmt

/-! ## Spanned impls (src/ast.rs, src/span.rs) -/

/-- `impl Spanned for Lit`. -/
def Lit.span : Lit → Span
  | .int i => i.span
  | .string s => s.span
  | .bool b => b.span
  | .float f => f.span
  | .path p => p.span

/-- `impl Spanned for UnOp`. -/
def UnOp.span : UnOp → Span
  | .not t => t.span
  | .localCoordinate t => t.span
  | .relativeCoordinate t => t.span
  | .formatSelection t => t.span

/-- `impl Spanned for ExprRange`. -/
def ExprRange.span (r : ExprRange) : Span :=
  ⟨match r.start with
    | some s => s.span.start
    | none => r.limit.span.start,
   match r.stop with
    | some s => s.span.stop
    | none => r.limit.span.stop⟩

/-- `impl Spanned for ExprMap`: note the `end` offset is the closing
curly token's span *start*, exactly as in the source. -/
def ExprMap.span (m : ExprMap) : Span :=
  ⟨m.curlies.1.span.start, m.curlies.2.span.start⟩

/-- `impl Spanned for Table`. -/
def TableIdent.span (t : TableIdent) : Span :=
  ⟨t.brackets.1.span.start, t.brackets.2.span.stop⟩

/-- `impl Spanned for ExprTarget`. -/
def ExprTarget.span (t : ExprTarget) : Span :=
  ⟨t.select.span.start,
   match t.params with
    | some p => p.brackets.2.span.stop
    | none => t.target.span.stop⟩

mutual

/-- `impl Spanned for Expr`. -/
def Expr.span : Expr → Span
  | .lit l => l.span
  | .urnary u => u.span
  | .range r => r.span
  | .map m => m.span
  | .target t => t.span

/-- `impl Spanned for ExprUrnary`. -/
def ExprUrnary.span : ExprUrnary → Span
  | .mk op e =>
    ⟨op.span.start,
     match e with
      | some s => s.span.stop
      | none => op.span.stop⟩

end

/-- `impl Spanned for ExprMapField`. -/
def ExprMapField.span : ExprMapField → Span
  | .mk key _ value comma =>
    ⟨key.span.start,
     match comma with
      | some c => c.span.stop
      | none => value.span.stop⟩

/- `impl Spanned for StmtComment` returns the `span` field itself, which
is already the structure projection `StmtComment.span`; likewise for the
five literal node types, `Ident` and `Token`. -/

/-- `impl Spanned for StmtCommand`. -/
def StmtCommand.span (c : StmtCommand) : Span :=
  ⟨match c.slash with
    | some s => s.span.start
    | none => c.ident.span.start,
   match c.arguments.map List.getLast? with
    | some (some s) => s.span.stop
    | _ => c.ident.span.stop⟩

/-- `impl Spanned for Stmt`. -/
def Stmt.span : Stmt → Span
  | .command c => c.span
  | .comment c => c.span

/-- `impl Spanned for Function`: first statement's start to last
statement's end, `0` via `unwrap_or_default` when there are none. -/
def Function.span (f : Function) : Span :=
  ⟨((f.statements.head?.map fun s => s.span.start).getD 0),
   ((f.statements.getLast?.map fun s => s.span.stop).getD 0)⟩

/-! ## Parser (src/parser.rs, src/ast.rs)

The Rust parsers mutate a `Peekable<TokenIter>`; here each parser takes
the remaining token list and returns the parsed node together with the
tokens left over.  `peek` is inspecting the head, `next` is consuming it.

The recursive parsers additionally take a fuel argument, decremented at
every call between them; exhausted fuel yields `ParseError::Eof` (the
same result as an exhausted stream), and the canonical entry points below
supply more fuel than any input can consume, so the sentinel is never
reached from them. -/

/-- src/parser.rs `ParseError<'src>`. -/
inductive ParseError where
  | lexError (e : LexError)
  | invalidToken (t : Token)
  | eof
deriving DecidableEq, Repr

/-- Parse outcome: the node plus the remaining token stream. -/
abbrev ParseResult (α : Type) := Except ParseError (α × List LexItem)

/-- The `extract_token!(tokens, Kind::K)` macro for a payload-free kind:
consume the next token, requiring exactly that kind. -/
def extractToken (want : Kind) : List LexItem → ParseResult Token
  | [] => .error .eof
  | .ok t :: rest => if t.kind = want then .ok (t, rest) else .error (.invalidToken t)
  | .error e :: _ => .error (.lexError e)

/-- The `extract_token!(tokens, Option<Kind::K>)` macro: consume the next
token only when peeking shows an `Ok` token of that kind; otherwise leave
the stream untouched and yield `None`. -/
def extractTokenOpt (want : Kind) (ts : List LexItem) : Option Token × List LexItem :=
  match ts with
  | .ok t :: rest => if t.kind = want then (some t, rest) else (none, ts)
  | _ => (none, ts)

/-- src/ast.rs `impl Parse for Ident`. -/
def Ident.parse : List LexItem → ParseResult Ident
  | [] => .error .eof
  | .ok ⟨.ident s, span⟩ :: rest => .ok (⟨s, span⟩, rest)
  | .ok t :: _ => .error (.invalidToken t)
  | .error e :: _ => .error (.lexError e)

/-- src/ast.rs `impl Parse for LitInt`. -/
def LitInt.parse : List LexItem → ParseResult LitInt
  | [] => .error .eof
  | .ok ⟨.int v, span⟩ :: rest => .ok (⟨v, span⟩, rest)
  | .ok t :: _ => .error (.invalidToken t)
  | .error e :: _ => .error (.lexError e)

/-- src/ast.rs `impl Parse for LitFloat`. -/
def LitFloat.parse : List LexItem → ParseResult LitFloat
  | [] => .error .eof
  | .ok ⟨.float v, span⟩ :: rest => .ok (⟨v, span⟩, rest)
  | .ok t :: _ => .error (.invalidToken t)
  | .error e :: _ => .error (.lexError e)

/-- src/ast.rs `impl Parse for LitString`. -/
def LitString.parse : List LexItem → ParseResult LitString
  | [] => .error .eof
  | .ok ⟨.string v, span⟩ :: rest => .ok (⟨v, span⟩, rest)
  | .ok t :: _ => .error (.invalidToken t)
  | .error e :: _ => .error (.lexError e)

/-- src/ast.rs `impl Parse for LitBool`. -/
def LitBool.parse : List LexItem → ParseResult LitBool
  | [] => .error .eof
  | .ok ⟨.bool v, span⟩ :: rest => .ok (⟨v, span⟩, rest)
  | .ok t :: _ => .error (.invalidToken t)
  | .error e :: _ => .error (.lexError e)

/-- src/ast.rs `impl Parse for LitPath`. -/
def LitPath.parse : List LexItem → ParseResult LitPath
  | [] => .error .eof
  | .ok ⟨.path v, span⟩ :: rest => .ok (⟨v, span⟩, rest)
  | .ok t :: _ => .error (.invalidToken t)
  | .error e :: _ => .error (.lexError e)

/-- src/ast.rs `impl Parse for StmtComment`. -/
def StmtComment.parse : List LexItem → ParseResult StmtComment
  | [] => .error .eof
  | .ok ⟨.comment s, span⟩ :: rest => .ok (⟨s, span⟩, rest)
  | .ok t :: _ => .error (.invalidToken t)
  | .error e :: _ => .error (.lexError e)

/-- src/ast.rs `impl Parse for Lit`: peek, dispatch on the literal
kind. -/
def Lit.parse (ts : List LexItem) : ParseResult Lit :=
  match ts with
  | [] => .error .eof
  | .error e :: _ => .error (.lexError e)
  | .ok t :: _ =>
    match t.kind with
    | .float _ => (LitFloat.parse ts).map fun (f, r) => (.float f, r)
    | .int _ => (LitInt.parse ts).map fun (i, r) => (.int i, r)
    | .string _ => (LitString.parse ts).map fun (s, r) => (.string s, r)
    | .path _ => (LitPath.parse ts).map fun (p, r) => (.path p, r)
    | .bool _ => (LitBool.parse ts).map fun (b, r) => (.bool b, r)
    | _ => .error (.invalidToken t)

/-- The `?` operator: continue with the parsed node and the remaining
stream, or propagate the failure. -/
def pbind {a b : Type} (x : ParseResult a)
    (f : a -> List LexItem -> ParseResult b) : ParseResult b :=
  match x with
  | .ok (v, ts) => f v ts
  | .error e => .error e

/-- src/ast.rs `ExprRange::parse`'s nested `parse_opt_int`: a leading
`Int` token parses as the bound, any other `Ok` token leaves the bound
absent, a lex error propagates, and an exhausted stream is `Eof`. -/
def parseOptInt : List LexItem -> ParseResult (Option LitInt)
  | [] => .error .eof
  | .error e :: _ => .error (.lexError e)
  | .ok t :: rest =>
    match t.kind with
    | .int v => .ok (some (LitInt.mk v t.span), rest)
    | _ => .ok (none, .ok t :: rest)

/-- src/ast.rs `impl Parse for ExprRange`: optional start integer, the
mandatory `..`, optional end integer. -/
def ExprRange.parse (ts : List LexItem) : ParseResult ExprRange :=
  pbind (parseOptInt ts) fun start ts1 =>
  pbind (extractToken .limit ts1) fun limit ts2 =>
  pbind (parseOptInt ts2) fun stop ts3 =>
  .ok (ExprRange.mk start limit stop, ts3)

mutual

/-- Modelled from the spec: `impl Parse for Expr` in src/ast.rs is an
empty `match tokens.peek() \x7b\x7d` stub, so the dispatch is taken from
spec section 4.3: float/int/string/bool/path start a `Literal`; `!` `^`
`~` `§` start a `UnaryOp`; an optional integer followed by `..` starts a
`Range` (one extra token of lookahead past a leading integer); `\x7b`
starts a `Map`; `@` starts a `Target`; any other lookahead is an
unexpected-token error, an exhausted stream is `Eof`, and a lex error
propagates. -/
def Expr.parse : Nat -> List LexItem -> ParseResult Expr
  | 0, _ => .error .eof
  | fuel + 1, ts =>
    match ts with
    | [] => .error .eof
    | .error e :: _ => .error (.lexError e)
    | .ok t :: rest =>
      match t.kind with
      | .int _ =>
        match rest with
        | .ok (Token.mk .limit _) :: _ => (ExprRange.parse ts).map fun (r, s) => (.range r, s)
        | _ => (Lit.parse ts).map fun (l, s) => (.lit l, s)
      | .limit => (ExprRange.parse ts).map fun (r, s) => (.range r, s)
      | .float _ => (Lit.parse ts).map fun (l, s) => (.lit l, s)
      | .string _ => (Lit.parse ts).map fun (l, s) => (.lit l, s)
      | .bool _ => (Lit.parse ts).map fun (l, s) => (.lit l, s)
      | .path _ => (Lit.parse ts).map fun (l, s) => (.lit l, s)
      | .not => (ExprUrnary.parse fuel ts).map fun (u, s) => (.urnary u, s)
      | .localCoordinate => (ExprUrnary.parse fuel ts).map fun (u, s) => (.urnary u, s)
      | .relativeCoordinate => (ExprUrnary.parse fuel ts).map fun (u, s) => (.urnary u, s)
      | .formatSelection => (ExprUrnary.parse fuel ts).map fun (u, s) => (.urnary u, s)
      | .leftBrace => (ExprMap.parse fuel ts).map fun (m, s) => (.map m, s)
      | .selector => (ExprTarget.parse fuel ts).map fun (tg, s) => (.target tg, s)
      | _ => .error (.invalidToken t)

/-- src/ast.rs `impl Parse for ExprUrnary`: consume the operator token
(`!` `~` `^` `§`), then the operand is always a recursively parsed
expression wrapped in `Some`. -/
def ExprUrnary.parse : Nat -> List LexItem -> ParseResult ExprUrnary
  | 0, _ => .error .eof
  | fuel + 1, ts =>
    match ts with
    | [] => .error .eof
    | .error e :: _ => .error (.lexError e)
    | .ok t :: rest =>
      match t.kind with
      | .not =>
        pbind (Expr.parse fuel rest) fun e ts1 =>
          .ok (ExprUrnary.mk (.not t) (some e), ts1)
      | .localCoordinate =>
        pbind (Expr.parse fuel rest) fun e ts1 =>
          .ok (ExprUrnary.mk (.localCoordinate t) (some e), ts1)
      | .relativeCoordinate =>
        pbind (Expr.parse fuel rest) fun e ts1 =>
          .ok (ExprUrnary.mk (.relativeCoordinate t) (some e), ts1)
      | .formatSelection =>
        pbind (Expr.parse fuel rest) fun e ts1 =>
          .ok (ExprUrnary.mk (.formatSelection t) (some e), ts1)
      | _ => .error (.invalidToken t)

/-- Modelled from the spec: `ExprMap` has no `Parse` impl in src/ast.rs;
spec sections 3 and 4.3 give `\x7b` then `MapField` entries with the same
field loop as `Table` (continue until the lookahead is the closing
brace), then `\x7d`. -/
def ExprMap.parse : Nat -> List LexItem -> ParseResult ExprMap
  | 0, _ => .error .eof
  | fuel + 1, ts =>
    pbind (extractToken .leftBrace ts) fun opn ts1 =>
    pbind (ExprMap.parseFields fuel ts1) fun fields ts2 =>
    pbind (extractToken .rightBrace ts2) fun cls ts3 =>
    .ok (ExprMap.mk (opn, cls) fields, ts3)

/-- Modelled from the spec: the map-field loop, one-or-more fields until
the lookahead is `\x7d` (same pattern as `Table::parse`'s loop). -/
def ExprMap.parseFields : Nat -> List LexItem -> ParseResult (List ExprMapField)
  | 0, _ => .error .eof
  | fuel + 1, ts =>
    pbind (ExprMapField.parse fuel ts) fun field ts1 =>
    match ts1 with
    | .ok (Token.mk .rightBrace sp) :: rest =>
      .ok ([field], .ok (Token.mk .rightBrace sp) :: rest)
    | .ok t :: rest =>
      pbind (ExprMap.parseFields fuel (.ok t :: rest)) fun fields ts2 =>
      .ok (field :: fields, ts2)
    | .error e :: _ => .error (.lexError e)
    | [] => .error .eof

/-- src/ast.rs `impl Parse for ExprMapField`: string-literal key, `:`,
expression value, optional trailing comma. -/
def ExprMapField.parse : Nat -> List LexItem -> ParseResult ExprMapField
  | 0, _ => .error .eof
  | fuel + 1, ts =>
    pbind (LitString.parse ts) fun key ts1 =>
    pbind (extractToken .colon ts1) fun colon ts2 =>
    pbind (Expr.parse fuel ts2) fun value ts3 =>
    .ok (ExprMapField.mk key colon value (extractTokenOpt .comma ts3).1,
      (extractTokenOpt .comma ts3).2)

/-- Modelled from the spec: `ExprTarget` has no `Parse` impl in
src/ast.rs; spec sections 3 and 4.3 give the `@` marker, the target-class
identifier, then an optional bracket-delimited parameter table, present
exactly when the lookahead is `[`. -/
def ExprTarget.parse : Nat -> List LexItem -> ParseResult ExprTarget
  | 0, _ => .error .eof
  | fuel + 1, ts =>
    pbind (extractToken .selector ts) fun select ts1 =>
    pbind (Ident.parse ts1) fun target ts2 =>
    match ts2 with
    | .ok (Token.mk .leftBracket sp) :: rest =>
      pbind (TableIdent.parse fuel (.ok (Token.mk .leftBracket sp) :: rest)) fun params ts3 =>
      .ok (ExprTarget.mk select target (some params), ts3)
    | _ => .ok (ExprTarget.mk select target none, ts2)

/-- src/ast.rs `impl Parse for Table<K>` at `K = Ident`: `[`, the field
loop, `]`. -/
def TableIdent.parse : Nat -> List LexItem -> ParseResult TableIdent
  | 0, _ => .error .eof
  | fuel + 1, ts =>
    pbind (extractToken .leftBracket ts) fun opn ts1 =>
    pbind (TableIdent.parseFields fuel ts1) fun fields ts2 =>
    pbind (extractToken .rightBracket ts2) fun cls ts3 =>
    .ok (TableIdent.mk (opn, cls) fields, ts3)

/-- src/ast.rs `Table::parse`'s loop: parse one field, then peek; `]`
breaks, any other `Ok` token continues, a lex error or exhaustion
fails. -/
def TableIdent.parseFields : Nat -> List LexItem -> ParseResult (List TableFieldIdent)
  | 0, _ => .error .eof
  | fuel + 1, ts =>
    pbind (TableFieldIdent.parse fuel ts) fun field ts1 =>
    match ts1 with
    | .ok (Token.mk .rightBracket sp) :: rest =>
      .ok ([field], .ok (Token.mk .rightBracket sp) :: rest)
    | .ok t :: rest =>
      pbind (TableIdent.parseFields fuel (.ok t :: rest)) fun fields ts2 =>
      .ok (field :: fields, ts2)
    | .error e :: _ => .error (.lexError e)
    | [] => .error .eof

/-- src/ast.rs `impl Parse for TableField<K>` at `K = Ident`.  Note two
source facts embedded faithfully: the key-value marker is extracted as
`Kind::Equal` (the `<>` token), not `Kind::Assign` (`=`); and in the
`!expression` branch no trailing comma is consumed. -/
def TableFieldIdent.parse : Nat -> List LexItem -> ParseResult TableFieldIdent
  | 0, _ => .error .eof
  | fuel + 1, ts =>
    pbind (Ident.parse ts) fun key ts1 =>
    pbind (extractToken .equal ts1) fun eq ts2 =>
    match ts2 with
    | [] => .error .eof
    | .error e :: _ => .error (.lexError e)
    | .ok t :: ts3 =>
      match t.kind with
      | .comma => .ok (TableFieldIdent.mk key eq none (some t), ts3)
      | .not =>
        match ts3 with
        | .ok (Token.mk .comma spc) :: ts4 =>
          .ok (TableFieldIdent.mk key eq
            (some (.urnary (ExprUrnary.mk (.not t) none))) (some (Token.mk .comma spc)), ts4)
        | _ =>
          pbind (Expr.parse fuel ts3) fun e ts4 =>
          .ok (TableFieldIdent.mk key eq
            (some (.urnary (ExprUrnary.mk (.not t) (some e)))) none, ts4)
      | _ =>
        pbind (Expr.parse fuel (.ok t :: ts3)) fun e ts3p =>
        .ok (TableFieldIdent.mk key eq (some e) (extractTokenOpt .comma ts3p).1,
          (extractTokenOpt .comma ts3p).2)

end

/-- src/ast.rs `StmtCommand::parse`'s argument loop: parse one
expression, push it, break when the stream is exhausted.  The returned
list always holds at least one expression. -/
def StmtCommand.parseArgs : Nat -> List LexItem -> ParseResult (List Expr)
  | 0, _ => .error .eof
  | fuel + 1, ts =>
    pbind (Expr.parse fuel ts) fun e ts1 =>
    match ts1 with
    | [] => .ok ([e], [])
    | t :: rest =>
      pbind (StmtCommand.parseArgs fuel (t :: rest)) fun es ts2 =>
      .ok (e :: es, ts2)

/-- src/ast.rs `impl Parse for StmtCommand`: optional slash, the name
identifier, then either no arguments (stream exhausted) or the argument
loop. -/
def StmtCommand.parse : Nat -> List LexItem -> ParseResult StmtCommand
  | 0, _ => .error .eof
  | fuel + 1, ts =>
    pbind (Ident.parse (extractTokenOpt .slash ts).2) fun ident ts2 =>
    match ts2 with
    | [] => .ok (StmtCommand.mk (extractTokenOpt .slash ts).1 ident none, [])
    | t :: rest =>
      pbind (StmtCommand.parseArgs fuel (t :: rest)) fun args ts3 =>
      .ok (StmtCommand.mk (extractTokenOpt .slash ts).1 ident (some args), ts3)

/-- src/ast.rs `impl Parse for Stmt`: a comment token parses a `Comment`,
any other `Ok` token a `Command`. -/
def Stmt.parse : Nat -> List LexItem -> ParseResult Stmt
  | 0, _ => .error .eof
  | fuel + 1, ts =>
    match ts with
    | .ok (Token.mk (.comment s) sp) :: rest =>
      (StmtComment.parse (.ok (Token.mk (.comment s) sp) :: rest)).map fun (c, r) =>
        (.comment c, r)
    | .ok t :: rest =>
      (StmtCommand.parse fuel (.ok t :: rest)).map fun (c, r) => (.command c, r)
    | .error e :: _ => .error (.lexError e)
    | [] => .error .eof

/-- src/ast.rs `impl Parse for Function`: statements until the stream is
exhausted; the empty stream yields an empty program. -/
def Function.parse : Nat -> List LexItem -> ParseResult Function
  | 0, _ => .error .eof
  | fuel + 1, ts =>
    match ts with
    | [] => .ok (Function.mk [], [])
    | t :: rest =>
      pbind (Stmt.parse fuel (t :: rest)) fun st ts1 =>
      pbind (Function.parse fuel ts1) fun fn ts2 =>
      .ok (Function.mk (st :: fn.statements), ts2)

/-- Fuel that no parse of `ts` can exhaust: every unit of fuel spent on
the same token costs at least one of the finitely many parser layers. -/
def ampleFuel (ts : List LexItem) : Nat :=
  8 * ts.length + 8

/-- Whole-pipeline entry point: lex the source and parse a `Function`
from it, as src/parser.rs's `test_parser` does. -/
def parseSrc (s : String) : Except ParseError Function :=
  (Function.parse (ampleFuel (lex s)) (lex s)).map fun (f, _) => f

/-- Expression-level entry point on a source text. -/
def parseExprSrc (s : String) : ParseResult Expr :=
  Expr.parse (ampleFuel (lex s)) (lex s)

/-! ## List utilities -/

/-- A `takeWhile` prefix is no longer than the list. -/
theorem takeWhileLen_le (p : Char → Bool) (l : List Char) :
    (l.takeWhile p).length ≤ l.length := by
  induction l with
  | nil => simp
  | cons a t ih =>
    by_cases hp : p a <;> simp [List.takeWhile_cons, hp] <;> omega

/-- A `takeWhile` prefix as long as the list means every element
satisfies the predicate. -/
theorem all_of_takeWhileLen_eq (p : Char → Bool) (l : List Char)
    (h : (l.takeWhile p).length = l.length) : ∀ c ∈ l, p c = true := by
  induction l with
  | nil => simp
  | cons a t ih =>
    by_cases hp : p a
    · simp only [List.takeWhile_cons, hp, if_true, List.length_cons,
        Nat.add_right_cancel_iff] at h
      intro c hc
      rcases List.mem_cons.mp hc with rfl | hc
      · exact hp
      · exact ih h c hc
    · simp [List.takeWhile_cons, hp] at h

/-- When every element satisfies the predicate, `takeWhile` is the whole
list. -/
theorem takeWhile_of_all (p : Char → Bool) (l : List Char)
    (h : ∀ c ∈ l, p c = true) : l.takeWhile p = l := by
  induction l with
  | nil => rfl
  | cons a t ih =>
    have ha := h a (List.mem_cons_self a t)
    have ht : t.takeWhile p = t := ih fun c hc => h c (List.mem_cons_of_mem a hc)
    simp [List.takeWhile_cons, ha, ht]

/-- `takeWhile` over a digit block followed by a non-matching character
stops exactly at the block. -/
theorem takeWhile_append_stop (p : Char → Bool) (pre : List Char) (b : Char)
    (post : List Char) (hpre : ∀ c ∈ pre, p c = true) (hb : p b = false) :
    (pre ++ b :: post).takeWhile p = pre := by
  induction pre with
  | nil => simp [List.takeWhile_cons, hb]
  | cons a t ih =>
    have ha := hpre a (List.mem_cons_self a t)
    have ht := ih fun c hc => hpre c (List.mem_cons_of_mem a hc)
    simp [List.takeWhile_cons, List.cons_append, ha, ht]

/-- Dropping the `takeWhile` prefix leaves the `dropWhile` suffix. -/
theorem drop_takeWhileLen (p : Char → Bool) (l : List Char) :
    l.drop (l.takeWhile p).length = l.dropWhile p := by
  induction l with
  | nil => rfl
  | cons a t ih =>
    by_cases hp : p a <;>
      simp [List.takeWhile_cons, List.dropWhile_cons, hp, ih]

/-- The head of a `dropWhile` suffix fails the predicate. -/
theorem head_dropWhile_false (p : Char → Bool) (l : List Char) (a : Char)
    (h : (l.dropWhile p).head? = some a) : p a = false := by
  induction l with
  | nil => simp at h
  | cons b t ih =>
    by_cases hp : p b
    · simp [List.dropWhile_cons, hp] at h
      exact ih h
    · simp [List.dropWhile_cons, hp] at h
      rcases h with rfl
      simpa using hp

/-- A `List.isPrefixOf` witness bounds the length, with equality only
for the list itself. -/
theorem isPrefixOf_len (t cs : List Char) (h : t.isPrefixOf cs = true) :
    t.length ≤ cs.length ∧ (t.length = cs.length → t = cs) := by
  induction t generalizing cs with
  | nil =>
    rcases cs with _ | ⟨b, bs⟩ <;> simp_all
  | cons a as ih =>
    rcases cs with _ | ⟨b, bs⟩
    · simp [List.isPrefixOf] at h
    · simp only [List.isPrefixOf, Bool.and_eq_true, beq_iff_eq] at h
      obtain ⟨rfl, hq⟩ := h
      obtain ⟨h1, h2⟩ := ih bs hq
      refine ⟨by simpa using h1, fun hl => ?_⟩
      simp only [List.length_cons, Nat.add_right_cancel_iff] at hl
      simp [h2 hl]

/-- The element at index `m` (given by `drop`/`head?`) is the last of
`take (m + 1)`. -/
theorem getLast_take_of_drop_head (l : List Char) (m : Nat) (a : Char)
    (h : (l.drop m).head? = some a) : (l.take (m + 1)).getLast? = some a := by
  induction m generalizing l with
  | zero =>
    rcases l with _ | ⟨b, t⟩ <;> simp_all
  | succ k ih =>
    rcases l with _ | ⟨b, t⟩
    · simp at h
    · have := ih t (by simpa using h)
      rcases ht : t.take (k + 1) with _ | ⟨c, u⟩
      · rw [ht] at this
        simp at this
      · simp only [List.take_succ_cons, ht, List.getLast?_cons_cons]
        rw [ht] at this
        exact this

/-! ## General lemmas about the lexer -/

/-- `pickBetter` returns one of its arguments. -/
theorem pickBetter_cases (a b : Cand) : pickBetter a b = a ∨ pickBetter a b = b := by
  unfold pickBetter
  repeat' split
  all_goals simp

/-- The winning candidate is a member of the candidate list. -/
theorem best_mem (l : List Cand) (c : Cand) (h : best l = some c) : c ∈ l := by
  induction l generalizing c with
  | nil => simp [best] at h
  | cons a t ih =>
    rw [best] at h
    rcases hb : best t with _ | b <;> rw [hb] at h
    · simp at h
      simp [h]
    · simp at h
      rcases pickBetter_cases a b with hc | hc <;> rw [hc] at h
      · simp [h]
      · exact List.mem_cons_of_mem a (ih c (h ▸ hb))

/-- A candidate that strictly dominates every other one (longer match, or
the same length with higher priority) wins. -/
theorem best_eq_of_dominant (l : List Cand) (c : Cand) (hmem : c ∈ l)
    (hdom : ∀ x ∈ l, x = c ∨ x.1 < c.1 ∨ (x.1 = c.1 ∧ x.2.1 < c.2.1)) :
    best l = some c := by
  induction l with
  | nil => simp at hmem
  | cons a t ih =>
    rw [best]
    rcases List.mem_cons.mp hmem with rfl | hmt
    · rcases hb : best t with _ | b
      · rfl
      · have hbmem := best_mem t b hb
        have hd := hdom b (List.mem_cons_of_mem c hbmem)
        have hpb : pickBetter c b = c := by
          rcases hd with rfl | hlt | ⟨heq, hpr⟩ <;>
            · unfold pickBetter
              repeat' split
              all_goals first | rfl | omega
        exact congrArg some hpb
    · have hrec := ih hmt fun x hx => hdom x (List.mem_cons_of_mem a hx)
      rw [hrec]
      have hd := hdom a (List.mem_cons_self a t)
      have hpb : pickBetter a c = c := by
        rcases hd with rfl | hlt | ⟨heq, hpr⟩ <;>
          · unfold pickBetter
            repeat' split
            all_goals first | rfl | omega
      exact congrArg some hpb

/-- Membership in an `optCand` singleton. -/
theorem mem_optCand {x : Cand} {m : Option Nat} {p : Nat}
    {f : List Char → Except LexErrorItem Kind} {cs : List Char}
    (hx : x ∈ optCand m p f cs) : ∃ n, m = some n ∧ x = (n, p, f (cs.take n)) := by
  rcases m with _ | n
  · simp [optCand] at hx
  · simp [optCand] at hx
    exact ⟨n, rfl, hx⟩

/-- Every candidate comes from one of the nine pattern groups. -/
theorem mem_candidates {x : Cand} {cs : List Char} (hx : x ∈ candidates cs) :
    (∃ n, matchFormat cs = some n ∧ x = (n, 4, .ok .formatSelection)) ∨
    (∃ n, matchFloat cs = some n ∧
      x = (n, 3, .ok (.float (String.mk (cs.take n))))) ∨
    (∃ n, matchInt cs = some n ∧ x = (n, 3, decodeIntKind (cs.take n))) ∨
    (∃ n, matchString cs = some n ∧
      x = (n, 6, .ok (.string (String.mk (cs.take n))))) ∨
    (∃ n, matchIdent cs = some n ∧
      x = (n, 2, .ok (.ident (String.mk (cs.take n))))) ∨
    (∃ n, matchPath cs = some n ∧
      x = (n, 1, .ok (.path (String.mk (cs.take n))))) ∨
    (∃ n, matchBool cs = some n ∧
      x = (n, 8, .ok (.bool (cs.take n = ['t', 'r', 'u', 'e'])))) ∨
    (∃ n, matchComment cs = some n ∧
      x = (n, 4, .ok (.comment (commentValue (cs.take n))))) ∨
    (∃ e, e ∈ litTable ∧ e.1.isPrefixOf cs = true ∧
      x = (e.1.length, e.2.1, .ok e.2.2)) := by
  simp only [candidates, List.mem_append] at hx
  rcases hx with ((((((((h | h) | h) | h) | h) | h) | h) | h) | h)
  · exact Or.inl (mem_optCand h)
  · exact Or.inr (Or.inl (mem_optCand h))
  · exact Or.inr (Or.inr (Or.inl (mem_optCand h)))
  · exact Or.inr (Or.inr (Or.inr (Or.inl (mem_optCand h))))
  · exact Or.inr (Or.inr (Or.inr (Or.inr (Or.inl (mem_optCand h)))))
  · exact Or.inr (Or.inr (Or.inr (Or.inr (Or.inr (Or.inl (mem_optCand h))))))
  · refine Or.inr (Or.inr (Or.inr (Or.inr (Or.inr (Or.inr (Or.inl ?_))))))
    obtain ⟨n, hm, hx⟩ := mem_optCand h
    refine ⟨n, hm, ?_⟩
    simpa using hx
  · exact Or.inr (Or.inr (Or.inr (Or.inr (Or.inr (Or.inr (Or.inr (Or.inl
      (mem_optCand h))))))))
  · refine Or.inr (Or.inr (Or.inr (Or.inr (Or.inr (Or.inr (Or.inr (Or.inr
      ?_)))))))
    simp only [litCands, List.mem_filterMap] at h
    obtain ⟨e, he, hcond⟩ := h
    by_cases hp : e.1.isPrefixOf cs
    · simp only [hp, if_true, Option.some.injEq] at hcond
      exact ⟨e, he, hp, hcond.symm⟩
    · simp [hp] at hcond

/-- `decodeIntKind` yields an int token or the overflow error, nothing
else. -/
theorem decodeIntKind_cases (sl : List Char) :
    (∃ v, decodeIntKind sl = .ok (.int v)) ∨
      decodeIntKind sl = .error .invalidInt := by
  by_cases h : -2147483648 ≤ decodeInt sl ∧ decodeInt sl ≤ 2147483647
  · exact Or.inl ⟨decodeInt sl, by simp [decodeIntKind, h]⟩
  · exact Or.inr (by simp [decodeIntKind, h])

/-- No literal token pattern carries a payload kind. -/
theorem litTable_kinds (e : List Char × Nat × Kind) (he : e ∈ litTable) :
    (∀ s, e.2.2 ≠ Kind.comment s) ∧ (∀ s, e.2.2 ≠ Kind.string s) ∧
    (∀ s, e.2.2 ≠ Kind.ident s) ∧ (∀ v, e.2.2 ≠ Kind.int v) ∧
    (∀ s, e.2.2 ≠ Kind.float s) ∧ (∀ b, e.2.2 ≠ Kind.bool b) := by
  fin_cases he <;> exact ⟨nofun, nofun, nofun, nofun, nofun, nofun⟩

/-- First-item inversion for `lexGo`. -/
theorem lexGo_first (fuel : Nat) (cs : List Char) (pos : Nat) (item : LexItem)
    (rest : List LexItem) (h : lexGo (fuel + 1) cs pos = item :: rest) :
    ∃ n, lexStep cs pos = some (item, n) ∧
      rest = lexGo fuel (cs.drop n) (pos + n) := by
  rw [lexGo] at h
  rcases hs : lexStep cs pos with _ | ⟨it, n⟩ <;> rw [hs] at h
  · simp at h
  · simp at h
    exact ⟨n, by rw [h.1], h.2.symm⟩

/-- Inversion of a successful `lexStep`: the winning candidate decoded
to the emitted kind, and the span covers the match right after the
skipped whitespace. -/
theorem lexStep_ok_inv (cs : List Char) (pos : Nat) (k : Kind) (sp : Span)
    (n : Nat) (h : lexStep cs pos = some (.ok ⟨k, sp⟩, n)) :
    ∃ len pr,
      best (candidates (cs.drop (cs.takeWhile whitespaceChar).length)) =
        some (len, pr, .ok k) ∧
      sp = ⟨pos + (cs.takeWhile whitespaceChar).length,
            pos + (cs.takeWhile whitespaceChar).length + len⟩ ∧
      n = (cs.takeWhile whitespaceChar).length + len := by
  unfold lexStep at h
  split at h
  · exact absurd h (by simp)
  case _ c r heq =>
    split at h
    case _ len pr k2 hb =>
      simp only [Option.some.injEq, Prod.mk.injEq, Except.ok.injEq,
        Token.mk.injEq] at h
      obtain ⟨⟨rfl, rfl⟩, rfl⟩ := h
      exact ⟨len, pr, by rw [heq, hb], rfl, rfl⟩
    case _ len pr e hb =>
      simp at h
    case _ hb =>
      simp at h

/-- Inversion of a `Comment` pattern match. -/
theorem matchComment_inv (cs : List Char) (n : Nat)
    (h : matchComment cs = some n) :
    ∃ r, cs = '#' :: r ∧ 0 < (r.takeWhile (fun x => x ≠ '\n')).length ∧
      n = 1 + (r.takeWhile (fun x => x ≠ '\n')).length := by
  rcases cs with _ | ⟨c, rest⟩
  · simp [matchComment] at h
  · rw [show matchComment (c :: rest) =
        if c = '#' ∧ 0 < (rest.takeWhile (fun x => x ≠ '\n')).length
        then some (1 + (rest.takeWhile (fun x => x ≠ '\n')).length)
        else none from rfl] at h
    by_cases hc : c = '#' ∧ 0 < (rest.takeWhile (fun x => x ≠ '\n')).length
    · rw [if_pos hc] at h
      exact ⟨rest, by rw [hc.1], hc.2, (Option.some.inj h).symm⟩
    · rw [if_neg hc] at h
      exact absurd h (by simp)

/-- Inversion of a `String` pattern match. -/
theorem matchString_inv (cs : List Char) (n : Nat)
    (h : matchString cs = some n) :
    ∃ r, cs = '"' :: r ∧ 0 < (r.takeWhile (fun x => x ≠ '"')).length ∧
      (r.drop (r.takeWhile (fun x => x ≠ '"')).length).head? = some '"' ∧
      n = (r.takeWhile (fun x => x ≠ '"')).length + 2 := by
  rcases cs with _ | ⟨c, rest⟩
  · simp [matchString] at h
  · rw [show matchString (c :: rest) =
        if c = '"' ∧ 0 < (rest.takeWhile (fun x => x ≠ '"')).length ∧
            (rest.drop (rest.takeWhile (fun x => x ≠ '"')).length).head? =
              some '"'
        then some ((rest.takeWhile (fun x => x ≠ '"')).length + 2)
        else none from rfl] at h
    by_cases hc : c = '"' ∧ 0 < (rest.takeWhile (fun x => x ≠ '"')).length ∧
        (rest.drop (rest.takeWhile (fun x => x ≠ '"')).length).head? = some '"'
    · rw [if_pos hc] at h
      exact ⟨rest, by rw [hc.1], hc.2.1, hc.2.2, (Option.some.inj h).symm⟩
    · rw [if_neg hc] at h
      exact absurd h (by simp)

/-- When the winning candidate decodes to a comment token, the comment
pattern matched and the value is the stripped slice. -/
theorem best_ok_comment_src (cs1 : List Char) (len pr : Nat) (v : String)
    (hb : best (candidates cs1) = some (len, pr, .ok (.comment v))) :
    matchComment cs1 = some len ∧ v = commentValue (cs1.take len) := by
  have hmem := best_mem _ _ hb
  rcases mem_candidates hmem with h | h | h | h | h | h | h | h | h
  · obtain ⟨n, _, hx⟩ := h
    simp at hx
  · obtain ⟨n, _, hx⟩ := h
    simp at hx
  · obtain ⟨n, _, hx⟩ := h
    rcases decodeIntKind_cases (cs1.take n) with ⟨v2, he⟩ | he <;>
      rw [he] at hx <;> simp at hx
  · obtain ⟨n, _, hx⟩ := h
    simp at hx
  · obtain ⟨n, _, hx⟩ := h
    simp at hx
  · obtain ⟨n, _, hx⟩ := h
    simp at hx
  · obtain ⟨n, _, hx⟩ := h
    simp at hx
  · obtain ⟨n, hm, hx⟩ := h
    simp only [Prod.mk.injEq, Except.ok.injEq, Kind.comment.injEq] at hx
    obtain ⟨rfl, _, rfl⟩ := hx
    exact ⟨hm, rfl⟩
  · obtain ⟨e, he, _, hx⟩ := h
    have := (litTable_kinds e he).1
    simp only [Prod.mk.injEq, Except.ok.injEq] at hx
    exact absurd hx.2.2.symm (this v)

/-- When the winning candidate decodes to a string token, the string
pattern matched and the value is the whole slice, quotes included. -/
theorem best_ok_string_src (cs1 : List Char) (len pr : Nat) (v : String)
    (hb : best (candidates cs1) = some (len, pr, .ok (.string v))) :
    matchString cs1 = some len ∧ v = String.mk (cs1.take len) := by
  have hmem := best_mem _ _ hb
  rcases mem_candidates hmem with h | h | h | h | h | h | h | h | h
  · obtain ⟨n, _, hx⟩ := h
    simp at hx
  · obtain ⟨n, _, hx⟩ := h
    simp at hx
  · obtain ⟨n, _, hx⟩ := h
    rcases decodeIntKind_cases (cs1.take n) with ⟨v2, he⟩ | he <;>
      rw [he] at hx <;> simp at hx
  · obtain ⟨n, hm, hx⟩ := h
    simp only [Prod.mk.injEq, Except.ok.injEq, Kind.string.injEq] at hx
    obtain ⟨rfl, _, rfl⟩ := hx
    exact ⟨hm, rfl⟩
  · obtain ⟨n, _, hx⟩ := h
    simp at hx
  · obtain ⟨n, _, hx⟩ := h
    simp at hx
  · obtain ⟨n, _, hx⟩ := h
    simp at hx
  · obtain ⟨n, _, hx⟩ := h
    simp at hx
  · obtain ⟨e, he, _, hx⟩ := h
    have := (litTable_kinds e he).2.1
    simp only [Prod.mk.injEq, Except.ok.injEq] at hx
    exact absurd hx.2.2.symm (this v)

/-- Elements of a `takeWhile` prefix satisfy the predicate. -/
theorem takeWhile_all (p : Char → Bool) (l : List Char) :
    ∀ c ∈ l.takeWhile p, p c = true := by
  induction l with
  | nil => simp
  | cons a t ih =>
    by_cases hp : p a
    · simp only [List.takeWhile_cons, hp, if_true]
      intro c hc
      rcases List.mem_cons.mp hc with rfl | hc
      · exact hp
      · exact ih c hc
    · simp [List.takeWhile_cons, hp]

/-- The head of a dropped suffix is a member of the list. -/
theorem mem_of_drop_head (l : List Char) (k : Nat) (a : Char)
    (h : (l.drop k).head? = some a) : a ∈ l := by
  have : a ∈ l.drop k := by
    rcases hd : l.drop k with _ | ⟨x, t⟩
    · rw [hd] at h
      simp at h
    · rw [hd] at h
      simp at h
      simp [hd, h]
  exact List.drop_subset k l this

/-- A list whose drop has a head is longer than the drop count. -/
theorem lt_length_of_drop_head (l : List Char) (k : Nat) (a : Char)
    (h : (l.drop k).head? = some a) : k < l.length := by
  by_contra hk
  rw [List.drop_eq_nil_of_le (by omega)] at h
  simp at h

/-- Inversion of a `FormatSelection` match. -/
theorem matchFormat_inv (cs : List Char) (n : Nat)
    (h : matchFormat cs = some n) :
    ∃ c2 t, cs = '§' :: c2 :: t ∧ n = 2 := by
  rcases cs with _ | ⟨c1, _ | ⟨c2, t⟩⟩
  · simp [matchFormat] at h
  · simp [matchFormat] at h
  · by_cases hc : c1 = '§' ∧ c2 ≠ '\n'
    · rw [show matchFormat (c1 :: c2 :: t) =
          if c1 = '§' ∧ c2 ≠ '\n' then some 2 else none from rfl,
        if_pos hc] at h
      exact ⟨c2, t, by rw [hc.1], (Option.some.inj h).symm⟩
    · rw [show matchFormat (c1 :: c2 :: t) =
          if c1 = '§' ∧ c2 ≠ '\n' then some 2 else none from rfl,
        if_neg hc] at h
      exact absurd h (by simp)

/-- Inversion of a `Bool` match. -/
theorem matchBool_inv (cs : List Char) (n : Nat) (h : matchBool cs = some n) :
    (['t', 'r', 'u', 'e'].isPrefixOf cs = true ∧ n = 4) ∨
    (['f', 'a', 'l', 's', 'e'].isPrefixOf cs = true ∧ n = 5) := by
  unfold matchBool at h
  by_cases h1 : ('t' :: 'r' :: 'u' :: 'e' :: []).isPrefixOf cs = true
  · rw [if_pos h1] at h
    exact Or.inl ⟨h1, (Option.some.inj h).symm⟩
  · rw [if_neg h1] at h
    by_cases h2 : ('f' :: 'a' :: 'l' :: 's' :: 'e' :: []).isPrefixOf cs = true
    · rw [if_pos h2] at h
      exact Or.inr ⟨h2, (Option.some.inj h).symm⟩
    · rw [if_neg h2] at h
      exact absurd h (by simp)

/-- Length bound for an `Ident` match. -/
theorem matchIdent_le (cs : List Char) (n : Nat) (h : matchIdent cs = some n) :
    n ≤ cs.length := by
  unfold matchIdent at h
  by_cases h1 : 0 < (cs.takeWhile identChar).length
  · simp only [h1, if_pos] at h
    rw [← Option.some.inj h]
    exact takeWhileLen_le _ _
  · simp [h1] at h

/-- Length bound for a `floatBody` match. -/
theorem floatBody_le (cs : List Char) (n : Nat) (h : floatBody cs = some n) :
    n ≤ cs.length := by
  unfold floatBody at h
  by_cases h1 : (cs.drop (digitsLen cs)).head? = some '.'
  · rw [if_pos h1] at h
    by_cases h2 : 0 < digitsLen (cs.drop (digitsLen cs + 1))
    · rw [if_pos h2] at h
      have hlt := lt_length_of_drop_head cs (digitsLen cs) '.' h1
      have hd2 : digitsLen (cs.drop (digitsLen cs + 1)) ≤
          cs.length - (digitsLen cs + 1) := by
        have := takeWhileLen_le Char.isDigit (cs.drop (digitsLen cs + 1))
        unfold digitsLen
        rw [List.length_drop] at this
        exact this
      rw [← Option.some.inj h]
      omega
    · rw [if_neg h2] at h
      exact absurd h (by simp)
  · rw [if_neg h1] at h
    exact absurd h (by simp)

/-- Length bound for a `Float` match. -/
theorem matchFloat_le (cs : List Char) (n : Nat) (h : matchFloat cs = some n) :
    n ≤ cs.length := by
  rcases cs with _ | ⟨c, rest⟩
  · simp [matchFloat] at h
  · rw [show matchFloat (c :: rest) =
      if c = '-' then (floatBody rest).map (· + 1) else floatBody (c :: rest)
      from rfl] at h
    by_cases hc : c = '-'
    · rw [if_pos hc] at h
      rcases hfb : floatBody rest with _ | k <;> rw [hfb] at h
      · simp at h
      · simp at h
        have := floatBody_le rest k hfb
        simp only [List.length_cons]
        omega
    · rw [if_neg hc] at h
      have := floatBody_le (c :: rest) n h
      exact this

/-- Length bound for an `Int` match. -/
theorem matchInt_le (cs : List Char) (n : Nat) (h : matchInt cs = some n) :
    n ≤ cs.length := by
  rcases cs with _ | ⟨c, rest⟩
  · simp [matchInt] at h
  · rw [show matchInt (c :: rest) =
      if c = '-' then
        (if 0 < digitsLen rest then some (1 + digitsLen rest) else none)
      else if 0 < digitsLen (c :: rest) then some (digitsLen (c :: rest))
      else none from rfl] at h
    have hb1 := takeWhileLen_le Char.isDigit rest
    have hb2 := takeWhileLen_le Char.isDigit (c :: rest)
    unfold digitsLen at h
    by_cases hc : c = '-'
    · rw [if_pos hc] at h
      by_cases h1 : 0 < (rest.takeWhile Char.isDigit).length
      · rw [if_pos h1] at h
        rw [← Option.some.inj h]
        simp only [List.length_cons]
        omega
      · rw [if_neg h1] at h
        exact absurd h (by simp)
    · rw [if_neg hc] at h
      by_cases h1 : 0 < ((c :: rest).takeWhile Char.isDigit).length
      · rw [if_pos h1] at h
        rw [← Option.some.inj h]
        exact hb2
      · rw [if_neg h1] at h
        exact absurd h (by simp)

/-- Length bound for a `Path` match. -/
theorem matchPath_le (cs : List Char) (n : Nat) (h : matchPath cs = some n) :
    n ≤ cs.length := by
  unfold matchPath at h
  by_cases h1 : 0 < (cs.takeWhile pathChar1).length ∧
      (cs.drop (cs.takeWhile pathChar1).length).head? = some '/'
  · rw [if_pos h1] at h
    by_cases h2 : 0 <
        ((cs.drop ((cs.takeWhile pathChar1).length + 1)).takeWhile
          pathChar2).length
    · rw [if_pos h2] at h
      have hlt := lt_length_of_drop_head cs ((cs.takeWhile pathChar1).length)
        '/' h1.2
      have hq : ((cs.drop ((cs.takeWhile pathChar1).length + 1)).takeWhile
          pathChar2).length ≤ cs.length - ((cs.takeWhile pathChar1).length + 1) := by
        have := takeWhileLen_le pathChar2
          (cs.drop ((cs.takeWhile pathChar1).length + 1))
        rw [List.length_drop] at this
        exact this
      rw [← Option.some.inj h]
      omega
    · rw [if_neg h2] at h
      exact absurd h (by simp)
  · rw [if_neg h1] at h
    exact absurd h (by simp)

/-- A `Path` match contains a slash. -/
theorem matchPath_slash (cs : List Char) (n : Nat) (h : matchPath cs = some n) :
    '/' ∈ cs := by
  unfold matchPath at h
  by_cases h1 : 0 < (cs.takeWhile pathChar1).length ∧
      (cs.drop (cs.takeWhile pathChar1).length).head? = some '/'
  · exact mem_of_drop_head cs _ '/' h1.2
  · rw [if_neg h1] at h
    exact absurd h (by simp)

/-- Length bound for a `String` match. -/
theorem matchString_le (cs : List Char) (n : Nat) (h : matchString cs = some n) :
    n ≤ cs.length := by
  obtain ⟨r, rfl, h0, hq, rfl⟩ := matchString_inv cs n h
  have := takeWhileLen_le (fun x => x ≠ '"') r
  have := lt_length_of_drop_head r _ '"' hq
  simp only [List.length_cons]
  omega

/-- Length bound for a `Comment` match. -/
theorem matchComment_le (cs : List Char) (n : Nat)
    (h : matchComment cs = some n) : n ≤ cs.length := by
  obtain ⟨r, rfl, h0, rfl⟩ := matchComment_inv cs n h
  have := takeWhileLen_le (fun x => x ≠ '\n') r
  simp only [List.length_cons]
  omega

/-- Every candidate's match is no longer than the input. -/
theorem cand_le {x : Cand} {cs : List Char} (hx : x ∈ candidates cs) :
    x.1 ≤ cs.length := by
  rcases mem_candidates hx with h | h | h | h | h | h | h | h | h
  · obtain ⟨n, hm, rfl⟩ := h
    obtain ⟨c2, t, rfl, rfl⟩ := matchFormat_inv _ n hm
    simp
  · obtain ⟨n, hm, rfl⟩ := h
    exact matchFloat_le cs n hm
  · obtain ⟨n, hm, rfl⟩ := h
    exact matchInt_le cs n hm
  · obtain ⟨n, hm, rfl⟩ := h
    exact matchString_le cs n hm
  · obtain ⟨n, hm, rfl⟩ := h
    exact matchIdent_le cs n hm
  · obtain ⟨n, hm, rfl⟩ := h
    exact matchPath_le cs n hm
  · obtain ⟨n, hm, rfl⟩ := h
    rcases matchBool_inv cs n hm with ⟨hp, rfl⟩ | ⟨hp, rfl⟩ <;>
      simpa using (isPrefixOf_len _ cs hp).1
  · obtain ⟨n, hm, rfl⟩ := h
    exact matchComment_le cs n hm
  · obtain ⟨e, he, hp, rfl⟩ := h
    exact (isPrefixOf_len _ cs hp).1

/-- To win, a full-length candidate only has to beat the other full-length
candidates on priority. -/
theorem best_of_full (cs : List Char) (c : Cand) (hc : c ∈ candidates cs)
    (hlen : c.1 = cs.length)
    (hmax : ∀ x ∈ candidates cs, x.1 = cs.length → x = c ∨ x.2.1 < c.2.1) :
    best (candidates cs) = some c := by
  apply best_eq_of_dominant _ _ hc
  intro x hx
  have hle := cand_le hx
  by_cases hxL : x.1 = cs.length
  · rcases hmax x hx hxL with rfl | hp
    · exact Or.inl rfl
    · exact Or.inr (Or.inr ⟨by omega, hp⟩)
  · exact Or.inr (Or.inl (by omega))

/-- A full-input `floatBody` match decomposes the input as digits, a
dot, then one-or-more digits. -/
theorem floatBody_full (cs : List Char) (h : floatBody cs = some cs.length) :
    ∃ pre post, cs = pre ++ '.' :: post ∧ (∀ c ∈ pre, c.isDigit = true) ∧
      (∀ c ∈ post, c.isDigit = true) ∧ post ≠ [] := by
  unfold floatBody at h
  by_cases h1 : (cs.drop (digitsLen cs)).head? = some '.'
  · rw [if_pos h1] at h
    by_cases h2 : 0 < digitsLen (cs.drop (digitsLen cs + 1))
    · rw [if_pos h2] at h
      have hn := Option.some.inj h
      rcases hdd : cs.drop (digitsLen cs) with _ | ⟨x, t⟩
      · rw [hdd] at h1
        simp at h1
      · rw [hdd] at h1
        simp only [List.head?_cons, Option.some.injEq] at h1
        subst h1
        have hsplit : cs = cs.takeWhile Char.isDigit ++ ('.' :: t) := by
          rw [← hdd,
            show digitsLen cs = (cs.takeWhile Char.isDigit).length from rfl,
            drop_takeWhileLen]
          exact (List.takeWhile_append_dropWhile _ _).symm
        have ht : cs.drop (digitsLen cs + 1) = t := by
          rw [← List.drop_drop 1 (digitsLen cs) cs, hdd]
          rfl
        have hlcs : cs.length = digitsLen cs + 1 + t.length := by
          rw [show digitsLen cs = (cs.takeWhile Char.isDigit).length from rfl]
          calc cs.length
              = (cs.takeWhile Char.isDigit ++ ('.' :: t)).length := by
                rw [← hsplit]
            _ = (cs.takeWhile Char.isDigit).length + 1 + t.length := by
                simp [List.length_append]
                omega
        have hd2 : digitsLen t = t.length := by
          have h3 : digitsLen (cs.drop (digitsLen cs + 1)) = t.length := by
            omega
          rw [ht] at h3
          exact h3
        have hallt : ∀ c ∈ t, c.isDigit = true :=
          all_of_takeWhileLen_eq Char.isDigit t hd2
        have htne : t ≠ [] := by
          intro hnil
          rw [hnil] at hd2
          rw [ht, hnil] at h2
          simp [digitsLen] at h2
        exact ⟨cs.takeWhile Char.isDigit, t, hsplit,
          takeWhile_all Char.isDigit cs, hallt, htne⟩
    · rw [if_neg h2] at h
      exact absurd h (by simp)
  · rw [if_neg h1] at h
    exact absurd h (by simp)

/-- A full-input `Float` match decomposes the input as an optional minus
sign, digits, a dot, then one-or-more digits. -/
theorem matchFloat_full_shape (cs : List Char)
    (h : matchFloat cs = some cs.length) :
    ∃ pre post, (∀ c ∈ pre, c.isDigit = true) ∧
      (∀ c ∈ post, c.isDigit = true) ∧ post ≠ [] ∧
      (cs = pre ++ '.' :: post ∨ cs = '-' :: (pre ++ '.' :: post)) := by
  rcases cs with _ | ⟨c, rest⟩
  · simp [matchFloat] at h
  · rw [show matchFloat (c :: rest) =
      if c = '-' then (floatBody rest).map (· + 1) else floatBody (c :: rest)
      from rfl] at h
    by_cases hc : c = '-'
    · rw [if_pos hc] at h
      rcases hfb : floatBody rest with _ | k <;> rw [hfb] at h
      · simp at h
      · have h2 : k + 1 = (c :: rest).length := Option.some.inj h
        simp only [List.length_cons] at h2
        have hk : k = rest.length := by omega
        subst hk
        obtain ⟨pre, post, hsp, hpre, hpost, hpne⟩ := floatBody_full rest hfb
        exact ⟨pre, post, hpre, hpost, hpne, Or.inr (by rw [hc, hsp])⟩
    · rw [if_neg hc] at h
      obtain ⟨pre, post, hsp, hpre, hpost, hpne⟩ := floatBody_full (c :: rest) h
      exact ⟨pre, post, hpre, hpost, hpne, Or.inl hsp⟩

/-- A full-input `Int` match decomposes the input as an optional minus
sign then one-or-more digits. -/
theorem matchInt_full_shape (cs : List Char)
    (h : matchInt cs = some cs.length) :
    ∃ ds, (∀ c ∈ ds, c.isDigit = true) ∧ ds ≠ [] ∧
      (cs = ds ∨ cs = '-' :: ds) := by
  rcases cs with _ | ⟨c, rest⟩
  · simp [matchInt] at h
  · rw [show matchInt (c :: rest) =
      if c = '-' then
        (if 0 < digitsLen rest then some (1 + digitsLen rest) else none)
      else if 0 < digitsLen (c :: rest) then some (digitsLen (c :: rest))
      else none from rfl] at h
    by_cases hc : c = '-'
    · rw [if_pos hc] at h
      by_cases h1 : 0 < digitsLen rest
      · rw [if_pos h1] at h
        have hn := Option.some.inj h
        simp only [List.length_cons] at hn
        have hd : digitsLen rest = rest.length := by omega
        refine ⟨rest, all_of_takeWhileLen_eq Char.isDigit rest hd, ?_,
          Or.inr (by rw [hc])⟩
        intro hnil
        rw [hnil] at h1
        simp [digitsLen] at h1
      · rw [if_neg h1] at h
        exact absurd h (by simp)
    · rw [if_neg hc] at h
      by_cases h1 : 0 < digitsLen (c :: rest)
      · rw [if_pos h1] at h
        have hd : digitsLen (c :: rest) = (c :: rest).length :=
          Option.some.inj h
        exact ⟨c :: rest, all_of_takeWhileLen_eq Char.isDigit _ hd,
          by simp, Or.inl rfl⟩
      · rw [if_neg h1] at h
        exact absurd h (by simp)

/-- A full-length float lexeme wins the candidate competition. -/
theorem best_float_full (cs : List Char) (hF : matchFloat cs = some cs.length) :
    best (candidates cs) = some (cs.length, 3, .ok (.float (String.mk cs))) := by
  obtain ⟨pre, post, hpre, hpost, hpne, hshape⟩ := matchFloat_full_shape cs hF
  have hhead : ∃ c1 tl, cs = c1 :: tl ∧
      (c1 = '-' ∨ c1 = '.' ∨ c1.isDigit = true) := by
    rcases hshape with hsh | hsh
    · rcases pre with _ | ⟨d, pre2⟩
      · exact ⟨'.', post, by simpa using hsh, Or.inr (Or.inl rfl)⟩
      · exact ⟨d, pre2 ++ '.' :: post, by simpa using hsh,
          Or.inr (Or.inr (hpre d (List.mem_cons_self d pre2)))⟩
    · exact ⟨'-', pre ++ '.' :: post, hsh, Or.inl rfl⟩
  obtain ⟨c1, tl, hc1, hc1f⟩ := hhead
  have hdotmem : '.' ∈ cs := by
    rcases hshape with rfl | rfl <;> simp
  apply best_of_full
  · simp [candidates, optCand, hF, List.take_length]
  · rfl
  · intro x hx hxL
    rcases mem_candidates hx with h | h | h | h | h | h | h | h | h
    · obtain ⟨n, hm, rfl⟩ := h
      obtain ⟨c2, t, hcs, _⟩ := matchFormat_inv cs n hm
      rw [hc1] at hcs
      obtain ⟨rfl, -⟩ := List.cons.inj hcs
      rcases hc1f with h2 | h2 | h2 <;> exact absurd h2 (by decide)
    · obtain ⟨n, hm, rfl⟩ := h
      left
      rw [hm] at hF
      have hn := Option.some.inj hF
      rw [hn, List.take_length]
    · obtain ⟨n, hm, rfl⟩ := h
      exfalso
      simp only at hxL
      subst hxL
      obtain ⟨ds, hds, hdsne, hsh2⟩ := matchInt_full_shape cs hm
      rcases hsh2 with rfl | rfl
      · exact absurd (hds '.' hdotmem) (by decide)
      · rcases List.mem_cons.mp hdotmem with h2 | h2
        · exact absurd h2 (by decide)
        · exact absurd (hds '.' h2) (by decide)
    · obtain ⟨n, hm, rfl⟩ := h
      obtain ⟨r, hcs, -⟩ := matchString_inv cs n hm
      rw [hc1] at hcs
      obtain ⟨rfl, -⟩ := List.cons.inj hcs
      rcases hc1f with h2 | h2 | h2 <;> exact absurd h2 (by decide)
    · obtain ⟨n, hm, rfl⟩ := h
      exact Or.inr (show (2 : Nat) < 3 by decide)
    · obtain ⟨n, hm, rfl⟩ := h
      exact Or.inr (show (1 : Nat) < 3 by decide)
    · obtain ⟨n, hm, rfl⟩ := h
      rcases matchBool_inv cs n hm with ⟨hp, rfl⟩ | ⟨hp, rfl⟩ <;>
        · rw [hc1] at hp
          simp only [List.isPrefixOf, Bool.and_eq_true, beq_iff_eq] at hp
          obtain ⟨rfl, -⟩ := hp
          rcases hc1f with h2 | h2 | h2 <;> exact absurd h2 (by decide)
    · obtain ⟨n, hm, rfl⟩ := h
      obtain ⟨r, hcs, -⟩ := matchComment_inv cs n hm
      rw [hc1] at hcs
      obtain ⟨rfl, -⟩ := List.cons.inj hcs
      rcases hc1f with h2 | h2 | h2 <;> exact absurd h2 (by decide)
    · obtain ⟨e, he, hp, rfl⟩ := h
      exfalso
      simp only at hxL
      have hecs : e.1 = cs := (isPrefixOf_len _ cs hp).2 hxL
      rw [← hecs] at hF
      fin_cases he <;> exact absurd hF (by decide)

/-- A full-length int lexeme wins the candidate competition (the payload
is its i32 decode: a token when it fits, the overflow error when не). -/
theorem best_int_full (cs : List Char) (hI : matchInt cs = some cs.length) :
    best (candidates cs) = some (cs.length, 3, decodeIntKind cs) := by
  obtain ⟨ds, hds, hdsne, hshape⟩ := matchInt_full_shape cs hI
  have hhead : ∃ c1 tl, cs = c1 :: tl ∧ (c1 = '-' ∨ c1.isDigit = true) := by
    rcases hshape with hsh | hsh
    · rcases hds2 : ds with _ | ⟨d, ds2⟩
      · exact absurd hds2 hdsne
      · exact ⟨d, ds2, by rw [hsh, hds2],
          Or.inr (hds d (by rw [hds2]; exact List.mem_cons_self d ds2))⟩
    · exact ⟨'-', ds, hsh, Or.inl rfl⟩
  obtain ⟨c1, tl, hc1, hc1f⟩ := hhead
  have hnodot : '.' ∉ cs := by
    intro hmem
    rcases hshape with hsh | hsh
    · rw [hsh] at hmem
      exact absurd (hds '.' hmem) (by decide)
    · rw [hsh] at hmem
      rcases List.mem_cons.mp hmem with h2 | h2
      · exact absurd h2 (by decide)
      · exact absurd (hds '.' h2) (by decide)
  apply best_of_full
  · have : (cs.length, 3, decodeIntKind (cs.take cs.length)) ∈ candidates cs := by
      simp [candidates, optCand, hI]
    rw [List.take_length] at this
    exact this
  · rfl
  · intro x hx hxL
    rcases mem_candidates hx with h | h | h | h | h | h | h | h | h
    · obtain ⟨n, hm, rfl⟩ := h
      obtain ⟨c2, t, hcs, -⟩ := matchFormat_inv cs n hm
      rw [hc1] at hcs
      obtain ⟨rfl, -⟩ := List.cons.inj hcs
      rcases hc1f with h2 | h2 <;> exact absurd h2 (by decide)
    · obtain ⟨n, hm, rfl⟩ := h
      exfalso
      simp only at hxL
      subst hxL
      obtain ⟨pre, post, -, -, -, hsh⟩ := matchFloat_full_shape cs hm
      apply hnodot
      rcases hsh with rfl | rfl <;> simp
    · obtain ⟨n, hm, rfl⟩ := h
      left
      rw [hm] at hI
      have hn := Option.some.inj hI
      rw [hn, List.take_length]
    · obtain ⟨n, hm, rfl⟩ := h
      obtain ⟨r, hcs, -⟩ := matchString_inv cs n hm
      rw [hc1] at hcs
      obtain ⟨rfl, -⟩ := List.cons.inj hcs
      rcases hc1f with h2 | h2 <;> exact absurd h2 (by decide)
    · obtain ⟨n, hm, rfl⟩ := h
      exact Or.inr (show (2 : Nat) < 3 by decide)
    · obtain ⟨n, hm, rfl⟩ := h
      exact Or.inr (show (1 : Nat) < 3 by decide)
    · obtain ⟨n, hm, rfl⟩ := h
      rcases matchBool_inv cs n hm with ⟨hp, rfl⟩ | ⟨hp, rfl⟩ <;>
        · rw [hc1] at hp
          simp only [List.isPrefixOf, Bool.and_eq_true, beq_iff_eq] at hp
          obtain ⟨rfl, -⟩ := hp
          rcases hc1f with h2 | h2 <;> exact absurd h2 (by decide)
    · obtain ⟨n, hm, rfl⟩ := h
      obtain ⟨r, hcs, -⟩ := matchComment_inv cs n hm
      rw [hc1] at hcs
      obtain ⟨rfl, -⟩ := List.cons.inj hcs
      rcases hc1f with h2 | h2 <;> exact absurd h2 (by decide)
    · obtain ⟨e, he, hp, rfl⟩ := h
      exfalso
      simp only at hxL
      have hecs : e.1 = cs := (isPrefixOf_len _ cs hp).2 hxL
      rw [← hecs] at hI
      fin_cases he <;> exact absurd hI (by decide)

/-- A word sequence that is not a numeral, not `true`/`false` and not the
exact string `..` wins the competition as an identifier. -/
theorem best_ident_full (cs : List Char) (hne : cs ≠ [])
    (hall : ∀ c ∈ cs, identChar c = true)
    (hnf : matchFloat cs ≠ some cs.length)
    (hni : matchInt cs ≠ some cs.length)
    (hnt : cs ≠ ['t', 'r', 'u', 'e']) (hnfa : cs ≠ ['f', 'a', 'l', 's', 'e'])
    (hnl : cs ≠ ['.', '.']) :
    best (candidates cs) = some (cs.length, 2, .ok (.ident (String.mk cs))) := by
  have hident : matchIdent cs = some cs.length := by
    unfold matchIdent
    rw [takeWhile_of_all identChar cs hall]
    rw [if_pos (by rcases cs with _ | ⟨a, b⟩; exact absurd rfl hne; simp)]
  apply best_of_full
  · simp [candidates, optCand, hident, List.take_length]
  · rfl
  · intro x hx hxL
    rcases mem_candidates hx with h | h | h | h | h | h | h | h | h
    · obtain ⟨n, hm, rfl⟩ := h
      obtain ⟨c2, t, hcs, -⟩ := matchFormat_inv cs n hm
      have : identChar '§' = true := hall '§' (by rw [hcs]; simp)
      exact absurd this (by decide)
    · obtain ⟨n, hm, rfl⟩ := h
      exfalso
      simp only at hxL
      subst hxL
      exact hnf hm
    · obtain ⟨n, hm, rfl⟩ := h
      exfalso
      simp only at hxL
      subst hxL
      exact hni hm
    · obtain ⟨n, hm, rfl⟩ := h
      obtain ⟨r, hcs, -⟩ := matchString_inv cs n hm
      have : identChar '"' = true := hall '"' (by rw [hcs]; simp)
      exact absurd this (by decide)
    · obtain ⟨n, hm, rfl⟩ := h
      left
      rw [hm] at hident
      have hn := Option.some.inj hident
      rw [hn, List.take_length]
    · obtain ⟨n, hm, rfl⟩ := h
      have : identChar '/' = true := hall '/' (matchPath_slash cs n hm)
      exact absurd this (by decide)
    · obtain ⟨n, hm, rfl⟩ := h
      exfalso
      simp only at hxL
      rcases matchBool_inv cs n hm with ⟨hp, rfl⟩ | ⟨hp, rfl⟩
      · exact hnt ((isPrefixOf_len _ cs hp).2 (by simpa using hxL)).symm
      · exact hnfa ((isPrefixOf_len _ cs hp).2 (by simpa using hxL)).symm
    · obtain ⟨n, hm, rfl⟩ := h
      obtain ⟨r, hcs, -⟩ := matchComment_inv cs n hm
      have : identChar '#' = true := hall '#' (by rw [hcs]; simp)
      exact absurd this (by decide)
    · obtain ⟨e, he, hp, rfl⟩ := h
      exfalso
      simp only at hxL
      have hecs : e.1 = cs := (isPrefixOf_len _ cs hp).2 hxL
      fin_cases he <;> first
        | exact hnl hecs.symm
        | · rw [← hecs] at hall
            exact absurd (hall _ (List.mem_cons_self _ _)) (by decide)

/-- A non-whitespace head means nothing is skipped. -/
theorem ws_len_zero_of_head (c : Char) (tl : List Char)
    (h : whitespaceChar c = false) :
    ((c :: tl).takeWhile whitespaceChar).length = 0 := by
  simp [List.takeWhile_cons, h]

/-- Digits are not lexer whitespace. -/
theorem ws_false_of_digit (c : Char) (h : c.isDigit = true) :
    whitespaceChar c = false := by
  rcases hws : whitespaceChar c
  · rfl
  · exfalso
    unfold whitespaceChar at hws
    simp only [Bool.or_eq_true, decide_eq_true_eq] at hws
    rcases hws with (rfl | rfl) | rfl <;> exact absurd h (by decide)

/-- Identifier characters are not lexer whitespace. -/
theorem ws_false_of_ident (c : Char) (h : identChar c = true) :
    whitespaceChar c = false := by
  rcases hws : whitespaceChar c
  · rfl
  · exfalso
    unfold whitespaceChar at hws
    simp only [Bool.or_eq_true, decide_eq_true_eq] at hws
    rcases hws with (rfl | rfl) | rfl <;> exact absurd h (by decide)

/-! ## General lemmas about the parsers -/

/-- An exhausted stream always yields `Eof`, whatever the fuel. -/
theorem Expr.parse_nil (fuel : Nat) : Expr.parse fuel [] = .error .eof := by
  cases fuel <;> rfl

/-- The argument loop of `StmtCommand::parse` never returns an empty
list: an expression is pushed before the stream is ever inspected. -/
theorem StmtCommand.parseArgs_ne_nil (fuel : Nat) (ts : List LexItem)
    (l : List Expr) (r : List LexItem)
    (h : StmtCommand.parseArgs fuel ts = .ok (l, r)) : l ≠ [] := by
  cases fuel with
  | zero => simp [StmtCommand.parseArgs] at h
  | succ f =>
    rw [StmtCommand.parseArgs] at h
    rcases he : Expr.parse f ts with e | ⟨v, ts1⟩ <;> rw [he] at h
    · simp [pbind] at h
    · rcases ts1 with _ | ⟨t, rest⟩
      · simp [pbind] at h
        simp [← h.1]
      · simp only [pbind] at h
        rcases ha : StmtCommand.parseArgs f (t :: rest) with e2 | ⟨l2, r2⟩ <;>
          rw [ha] at h
        · simp at h
        · simp at h
          simp [← h.1]

/-- A dangling unary-operator token at the end of the stream makes the
expression parser fail with `Eof`: the operator is consumed and the
operand parse hits the exhausted stream (or exhausted fuel, which yields
the same `Eof`). -/
theorem Expr.parse_dangling_op (fuel : Nat) (k : Kind) (sp : Span)
    (hk : k = .not ∨ k = .localCoordinate ∨ k = .relativeCoordinate ∨
      k = .formatSelection) :
    Expr.parse fuel [.ok ⟨k, sp⟩] = .error .eof := by
  cases fuel with
  | zero => rfl
  | succ f =>
    cases f with
    | zero => rcases hk with rfl | rfl | rfl | rfl <;> rfl
    | succ g =>
      rcases hk with rfl | rfl | rfl | rfl <;>
        simp [Expr.parse, ExprUrnary.parse, Expr.parse_nil, pbind, Except.map]

/-! ## Claim theorems -/

/-- C9: parsing the empty input succeeds and produces a `Function`
(program) with an empty statement sequence whose reported span is the
zero-width span `[0, 0)`. -/
theorem c9_empty_input_empty_program :
    parseSrc "" = .ok (Function.mk []) ∧
      (Function.mk []).span = ⟨0, 0⟩ :=
  ⟨rfl, rfl⟩

/-- C1: the code, not the claim, is wrong.  `TableField::parse` extracts
the key-value marker with `extract_token!(tokens, Kind::Equal)` — the
`<>` token — while `=` lexes as `Kind::Assign`, so parsing
`@e[type="zombie",limit=1]` as an expression fails with an
unexpected-token error at the `=` of the first field (offsets 7..8)
instead of producing the claimed `Target`. -/
theorem c1_target_parse_rejects_assign_marker :
    parseExprSrc "@e[type=\"zombie\",limit=1]" =
      .error (.invalidToken ⟨.assign, ⟨7, 8⟩⟩) :=
  rfl

/-- C2: the code, not the claim, is wrong for `ExprMap`.  Parsing the
expression `{"a":1}` succeeds and every node's span is the union of its
children's spans except the map node itself: `impl Spanned for ExprMap`
uses the closing curly token's span *start*, so the map's span is
`[0, 6)` while its last child, the closing curly, ends at 7. -/
theorem c2_map_span_misses_closing_curly :
    parseExprSrc "\x7b\"a\":1\x7d" =
      .ok (.map (ExprMap.mk
        (⟨.leftBrace, ⟨0, 1⟩⟩, ⟨.rightBrace, ⟨6, 7⟩⟩)
        [ExprMapField.mk ⟨"\"a\"", ⟨1, 4⟩⟩ ⟨.colon, ⟨4, 5⟩⟩
          (.lit (.int ⟨1, ⟨5, 6⟩⟩)) none]), []) ∧
    (ExprMap.span (ExprMap.mk
        (⟨.leftBrace, ⟨0, 1⟩⟩, ⟨.rightBrace, ⟨6, 7⟩⟩)
        [ExprMapField.mk ⟨"\"a\"", ⟨1, 4⟩⟩ ⟨.colon, ⟨4, 5⟩⟩
          (.lit (.int ⟨1, ⟨5, 6⟩⟩)) none])).stop = 6 ∧
    (Token.mk .rightBrace ⟨6, 7⟩).span.stop = 7 :=
  ⟨rfl, rfl, rfl⟩

/-- C5 counterexample: the input `~` ends with a unary prefix operator
that has no following token and fails to parse, but the failure is an
unexpected-token error (the `~` is hit where a command-name identifier is
required), not `Eof`. -/
theorem c5_counterexample_tilde_fails_with_invalid_token :
    parseSrc "~" = .error (.invalidToken ⟨.relativeCoordinate, ⟨0, 1⟩⟩) ∧
      ParseError.invalidToken ⟨.relativeCoordinate, ⟨0, 1⟩⟩ ≠ ParseError.eof :=
  ⟨rfl, by decide⟩

/-- C5 amended: an input whose dangling unary prefix operator is reached
in expression-argument position — a command (with slash) whose name
parses and whose final token is `!`, `~`, `^` or `§` — fails with the
unexpected-end-of-input kind `Eof` (for any sufficient fuel), and in
particular `/cmd !` fails with `Eof`; but an input ending with a unary
operator can fail earlier with a different error kind, as `~` alone
does. -/
theorem c5_amended_dangling_op_in_expr_position_is_eof :
    (∀ fuel name sp1 sp2 sp3 k, 4 ≤ fuel →
      (k = Kind.not ∨ k = .localCoordinate ∨ k = .relativeCoordinate ∨
        k = .formatSelection) →
      Function.parse fuel
        [.ok ⟨.slash, sp1⟩, .ok ⟨.ident name, sp2⟩, .ok ⟨k, sp3⟩] =
          .error .eof) ∧
    parseSrc "/cmd !" = .error .eof := by
  constructor
  · intro fuel name sp1 sp2 sp3 k hf hk
    obtain ⟨f, rfl⟩ : ∃ f, fuel = f + 1 + 1 + 1 + 1 := ⟨fuel - 4, by omega⟩
    simp [Function.parse, Stmt.parse, StmtCommand.parse, StmtCommand.parseArgs,
      Ident.parse, extractTokenOpt, pbind, Except.map,
      Expr.parse_dangling_op f k sp3 hk]
  · rfl

/-- C5 amended witness at `/cmd !`'s token stream with fuel 4. -/
theorem c5_amended_witness :
    Function.parse 4
      [.ok ⟨.slash, ⟨0, 1⟩⟩, .ok ⟨.ident "cmd", ⟨1, 4⟩⟩, .ok ⟨.not, ⟨5, 6⟩⟩] =
        .error .eof :=
  c5_amended_dangling_op_in_expr_position_is_eof.1 4 "cmd" ⟨0, 1⟩ ⟨1, 4⟩ ⟨5, 6⟩
    .not (by decide) (Or.inl rfl)

/-- C4 counterexample: a range whose end bound is omitted because the
input is exhausted after `..` does NOT parse — `parse_opt_int` returns
`Eof` on an empty stream — and the source text `0..10` does not parse as
a `Range` either, because the whole of `0..10` lexes as a single
identifier token (the identifier class contains `.`), which the range
parser rejects. -/
theorem c4_counterexample_range_eof_and_lexing :
    ExprRange.parse [.ok ⟨.int 0, ⟨0, 1⟩⟩, .ok ⟨.limit, ⟨1, 3⟩⟩] =
        .error .eof ∧
      lex "0..10" = [.ok ⟨.ident "0..10", ⟨0, 5⟩⟩] ∧
      ExprRange.parse (lex "0..10") =
        .error (.invalidToken ⟨.ident "0..10", ⟨0, 5⟩⟩) :=
  ⟨rfl, rfl, rfl⟩

/-- C4 amended: `ExprRange::parse` accepts an optional leading integer
token, requires the `..` token, and accepts an optional trailing integer
token; a bound is omitted only when another (non-integer) token is
present in its place — if the stream is exhausted where the optional
trailing (or leading) integer would be inspected the parse fails with
`Eof` — and the token sequence `0`, `..`, `10` parses to a `Range` with
start 0 and end 10 (the source text `0..10` itself lexes as one
identifier token, so that `Range` only arises from separated tokens). -/
theorem c4_amended_range_grammar :
    (∀ (a : Int) spa spl (b : Int) spb ts,
      ExprRange.parse
          (.ok ⟨.int a, spa⟩ :: .ok ⟨.limit, spl⟩ :: .ok ⟨.int b, spb⟩ :: ts) =
        .ok (⟨some ⟨a, spa⟩, ⟨.limit, spl⟩, some ⟨b, spb⟩⟩, ts)) ∧
    (∀ spl (t : Token) ts, (∀ v, t.kind ≠ .int v) →
      ExprRange.parse (.ok ⟨.limit, spl⟩ :: .ok t :: ts) =
        .ok (⟨none, ⟨.limit, spl⟩, none⟩, .ok t :: ts)) ∧
    (∀ (a : Int) spa spl (t : Token) ts, (∀ v, t.kind ≠ .int v) →
      ExprRange.parse (.ok ⟨.int a, spa⟩ :: .ok ⟨.limit, spl⟩ :: .ok t :: ts) =
        .ok (⟨some ⟨a, spa⟩, ⟨.limit, spl⟩, none⟩, .ok t :: ts)) ∧
    (∀ spl, ExprRange.parse [.ok ⟨.limit, spl⟩] = .error .eof) ∧
    (∀ (a : Int) spa spl,
      ExprRange.parse [.ok ⟨.int a, spa⟩, .ok ⟨.limit, spl⟩] = .error .eof) := by
  refine ⟨fun a spa spl b spb ts => rfl, ?_, ?_, fun spl => rfl,
    fun a spa spl => rfl⟩
  · intro spl t ts h
    rcases t with ⟨k, sp⟩
    cases k <;> first
      | exact absurd rfl (h _)
      | rfl
  · intro a spa spl t ts h
    rcases t with ⟨k, sp⟩
    cases k <;> first
      | exact absurd rfl (h _)
      | rfl

/-- C4 amended witness: each amended clause at concrete tokens. -/
theorem c4_amended_witness :
    ExprRange.parse
        [.ok ⟨.int 0, ⟨0, 1⟩⟩, .ok ⟨.limit, ⟨1, 3⟩⟩, .ok ⟨.int 10, ⟨3, 5⟩⟩] =
      .ok (⟨some ⟨0, ⟨0, 1⟩⟩, ⟨.limit, ⟨1, 3⟩⟩, some ⟨10, ⟨3, 5⟩⟩⟩, []) ∧
    ExprRange.parse [.ok ⟨.limit, ⟨0, 2⟩⟩, .ok ⟨.comma, ⟨2, 3⟩⟩] =
      .ok (⟨none, ⟨.limit, ⟨0, 2⟩⟩, none⟩, [.ok ⟨.comma, ⟨2, 3⟩⟩]) ∧
    ExprRange.parse
        [.ok ⟨.int 7, ⟨0, 1⟩⟩, .ok ⟨.limit, ⟨1, 3⟩⟩, .ok ⟨.comma, ⟨3, 4⟩⟩] =
      .ok (⟨some ⟨7, ⟨0, 1⟩⟩, ⟨.limit, ⟨1, 3⟩⟩, none⟩, [.ok ⟨.comma, ⟨3, 4⟩⟩]) ∧
    ExprRange.parse [.ok ⟨.limit, ⟨0, 2⟩⟩] = .error .eof :=
  ⟨c4_amended_range_grammar.1 0 ⟨0, 1⟩ ⟨1, 3⟩ 10 ⟨3, 5⟩ [],
   c4_amended_range_grammar.2.1 ⟨0, 2⟩ ⟨.comma, ⟨2, 3⟩⟩ []
     (fun _v h => Kind.noConfusion h),
   c4_amended_range_grammar.2.2.1 7 ⟨0, 1⟩ ⟨1, 3⟩ ⟨.comma, ⟨3, 4⟩⟩ []
     (fun _v h => Kind.noConfusion h),
   c4_amended_range_grammar.2.2.2.1 ⟨0, 2⟩⟩

/-- C3 counterexample: in a table field, when the token after the key and
the key-value marker is the closing bracket `]`, the field's value is NOT
absent as the claim states; the parser hands `]` to the expression parser
and fails with an unexpected-token error. -/
theorem c3_counterexample_rbracket_in_value_position :
    TableFieldIdent.parse 9
        [.ok ⟨.ident "k", ⟨0, 1⟩⟩, .ok ⟨.equal, ⟨1, 3⟩⟩,
         .ok ⟨.rightBracket, ⟨3, 4⟩⟩] =
      .error (.invalidToken ⟨.rightBracket, ⟨3, 4⟩⟩) :=
  rfl

/-- C3 amended: in a table field, after the key and the key-value marker
(which the code extracts as the `Kind::Equal` token `<>`, not `=`): if
the next token is a comma the value is absent and that comma is consumed;
if it is `!` followed by a comma the value is `UnaryOp(not, absent)` and
that comma is consumed; if it is `!` followed by anything else the value
is `UnaryOp(not, parsed expression)` and NO trailing comma is consumed;
otherwise the value is a plain parsed expression followed by one
optionally consumed trailing comma.  A closing bracket in value position
(with or without `!`) is an unexpected-token error, not an absent
value. -/
theorem c3_amended_table_field_value_dispatch :
    (∀ f s spk spe spc ts,
      TableFieldIdent.parse (f + 1)
          (.ok ⟨.ident s, spk⟩ :: .ok ⟨.equal, spe⟩ :: .ok ⟨.comma, spc⟩ :: ts) =
        .ok (TableFieldIdent.mk ⟨s, spk⟩ ⟨.equal, spe⟩ none
          (some ⟨.comma, spc⟩), ts)) ∧
    (∀ f s spk spe spn spc ts,
      TableFieldIdent.parse (f + 1)
          (.ok ⟨.ident s, spk⟩ :: .ok ⟨.equal, spe⟩ :: .ok ⟨.not, spn⟩ ::
            .ok ⟨.comma, spc⟩ :: ts) =
        .ok (TableFieldIdent.mk ⟨s, spk⟩ ⟨.equal, spe⟩
          (some (.urnary (ExprUrnary.mk (.not ⟨.not, spn⟩) none)))
          (some ⟨.comma, spc⟩), ts)) ∧
    (∀ f s spk spe spn ts3 e ts4,
      (∀ sp, ts3.head? ≠ some (.ok ⟨.comma, sp⟩)) →
      Expr.parse f ts3 = .ok (e, ts4) →
      TableFieldIdent.parse (f + 1)
          (.ok ⟨.ident s, spk⟩ :: .ok ⟨.equal, spe⟩ :: .ok ⟨.not, spn⟩ :: ts3) =
        .ok (TableFieldIdent.mk ⟨s, spk⟩ ⟨.equal, spe⟩
          (some (.urnary (ExprUrnary.mk (.not ⟨.not, spn⟩) (some e)))) none,
          ts4)) ∧
    (∀ f s spk spe (t : Token) ts3 e ts3p,
      t.kind ≠ .comma → t.kind ≠ .not →
      Expr.parse f (.ok t :: ts3) = .ok (e, ts3p) →
      TableFieldIdent.parse (f + 1)
          (.ok ⟨.ident s, spk⟩ :: .ok ⟨.equal, spe⟩ :: .ok t :: ts3) =
        .ok (TableFieldIdent.mk ⟨s, spk⟩ ⟨.equal, spe⟩ (some e)
          (extractTokenOpt .comma ts3p).1, (extractTokenOpt .comma ts3p).2)) ∧
    (∀ f s spk spe sp ts,
      TableFieldIdent.parse (f + 1 + 1)
          (.ok ⟨.ident s, spk⟩ :: .ok ⟨.equal, spe⟩ ::
            .ok ⟨.rightBracket, sp⟩ :: ts) =
        .error (.invalidToken ⟨.rightBracket, sp⟩)) ∧
    (∀ f s spk spe spn sp ts,
      TableFieldIdent.parse (f + 1 + 1)
          (.ok ⟨.ident s, spk⟩ :: .ok ⟨.equal, spe⟩ :: .ok ⟨.not, spn⟩ ::
            .ok ⟨.rightBracket, sp⟩ :: ts) =
        .error (.invalidToken ⟨.rightBracket, sp⟩)) := by
  refine ⟨fun f s spk spe spc ts => rfl, fun f s spk spe spn spc ts => rfl,
    ?_, ?_, ?_, ?_⟩
  · intro f s spk spe spn ts3 e ts4 hnc hE
    rcases ts3 with _ | ⟨it, rest⟩
    · rw [Expr.parse_nil] at hE
      exact absurd hE (by simp)
    · rcases it with le | ⟨k, sp⟩
      · simp [TableFieldIdent.parse, Ident.parse, extractToken, pbind, hE]
      · cases k <;>
          simp_all [TableFieldIdent.parse, Ident.parse, extractToken, pbind]
  · intro f s spk spe t ts3 e ts3p hc hn hE
    rcases t with ⟨k, sp⟩
    cases k <;>
      simp_all [TableFieldIdent.parse, Ident.parse, extractToken, pbind]
  · intro f s spk spe sp ts
    simp [TableFieldIdent.parse, Ident.parse, extractToken, pbind,
      Expr.parse, extractTokenOpt]
  · intro f s spk spe spn sp ts
    simp [TableFieldIdent.parse, Ident.parse, extractToken, pbind,
      Expr.parse, extractTokenOpt]

/-- C3 amended witness: each amended clause at concrete tokens. -/
theorem c3_amended_witness :
    TableFieldIdent.parse 3
        [.ok ⟨.ident "k", ⟨0, 1⟩⟩, .ok ⟨.equal, ⟨1, 3⟩⟩,
         .ok ⟨.comma, ⟨3, 4⟩⟩] =
      .ok (TableFieldIdent.mk ⟨"k", ⟨0, 1⟩⟩ ⟨.equal, ⟨1, 3⟩⟩ none
        (some ⟨.comma, ⟨3, 4⟩⟩), []) ∧
    TableFieldIdent.parse 3
        [.ok ⟨.ident "k", ⟨0, 1⟩⟩, .ok ⟨.equal, ⟨1, 3⟩⟩, .ok ⟨.not, ⟨3, 4⟩⟩,
         .ok ⟨.comma, ⟨4, 5⟩⟩] =
      .ok (TableFieldIdent.mk ⟨"k", ⟨0, 1⟩⟩ ⟨.equal, ⟨1, 3⟩⟩
        (some (.urnary (ExprUrnary.mk (.not ⟨.not, ⟨3, 4⟩⟩) none)))
        (some ⟨.comma, ⟨4, 5⟩⟩), []) ∧
    TableFieldIdent.parse 2
        [.ok ⟨.ident "k", ⟨0, 1⟩⟩, .ok ⟨.equal, ⟨1, 3⟩⟩, .ok ⟨.not, ⟨3, 4⟩⟩,
         .ok ⟨.int 5, ⟨4, 5⟩⟩] =
      .ok (TableFieldIdent.mk ⟨"k", ⟨0, 1⟩⟩ ⟨.equal, ⟨1, 3⟩⟩
        (some (.urnary (ExprUrnary.mk (.not ⟨.not, ⟨3, 4⟩⟩)
          (some (.lit (.int ⟨5, ⟨4, 5⟩⟩)))))) none, []) ∧
    TableFieldIdent.parse 2
        [.ok ⟨.ident "k", ⟨0, 1⟩⟩, .ok ⟨.equal, ⟨1, 3⟩⟩, .ok ⟨.int 5, ⟨3, 4⟩⟩,
         .ok ⟨.comma, ⟨4, 5⟩⟩] =
      .ok (TableFieldIdent.mk ⟨"k", ⟨0, 1⟩⟩ ⟨.equal, ⟨1, 3⟩⟩
        (some (.lit (.int ⟨5, ⟨3, 4⟩⟩)))
        (extractTokenOpt .comma [.ok ⟨.comma, ⟨4, 5⟩⟩]).1,
        (extractTokenOpt .comma [.ok ⟨.comma, ⟨4, 5⟩⟩]).2) ∧
    TableFieldIdent.parse 2
        [.ok ⟨.ident "k", ⟨0, 1⟩⟩, .ok ⟨.equal, ⟨1, 3⟩⟩,
         .ok ⟨.rightBracket, ⟨3, 4⟩⟩] =
      .error (.invalidToken ⟨.rightBracket, ⟨3, 4⟩⟩) ∧
    TableFieldIdent.parse 2
        [.ok ⟨.ident "k", ⟨0, 1⟩⟩, .ok ⟨.equal, ⟨1, 3⟩⟩, .ok ⟨.not, ⟨3, 4⟩⟩,
         .ok ⟨.rightBracket, ⟨4, 5⟩⟩] =
      .error (.invalidToken ⟨.rightBracket, ⟨4, 5⟩⟩) :=
  ⟨c3_amended_table_field_value_dispatch.1 2 "k" ⟨0, 1⟩ ⟨1, 3⟩ ⟨3, 4⟩ [],
   c3_amended_table_field_value_dispatch.2.1 2 "k" ⟨0, 1⟩ ⟨1, 3⟩ ⟨3, 4⟩ ⟨4, 5⟩ [],
   c3_amended_table_field_value_dispatch.2.2.1 1 "k" ⟨0, 1⟩ ⟨1, 3⟩ ⟨3, 4⟩
     [.ok ⟨.int 5, ⟨4, 5⟩⟩] (.lit (.int ⟨5, ⟨4, 5⟩⟩)) []
     (fun sp h => by simp at h) rfl,
   c3_amended_table_field_value_dispatch.2.2.2.1 1 "k" ⟨0, 1⟩ ⟨1, 3⟩
     ⟨.int 5, ⟨3, 4⟩⟩ [.ok ⟨.comma, ⟨4, 5⟩⟩] (.lit (.int ⟨5, ⟨3, 4⟩⟩))
     [.ok ⟨.comma, ⟨4, 5⟩⟩]
     (fun h => Kind.noConfusion h) (fun h => Kind.noConfusion h) rfl,
   c3_amended_table_field_value_dispatch.2.2.2.2.1 0 "k" ⟨0, 1⟩ ⟨1, 3⟩ ⟨3, 4⟩ [],
   c3_amended_table_field_value_dispatch.2.2.2.2.2 0 "k" ⟨0, 1⟩ ⟨1, 3⟩ ⟨3, 4⟩
     ⟨4, 5⟩ []⟩

/-- C7: `/kill` parses to one `Command` with the slash token present,
name `kill` and an absent argument list; `/fill 1 2` parses to one
`Command` named `fill` with exactly the integer-literal arguments 1 and 2
in order; and every successfully parsed `Command` has `arguments = none`
exactly when the name parse consumed the rest of the stream (no token
followed the name), while a present-but-empty argument list is never
produced. -/
theorem c7_command_arguments :
    parseSrc "/kill" =
      .ok (Function.mk [.command (StmtCommand.mk (some ⟨.slash, ⟨0, 1⟩⟩)
        ⟨"kill", ⟨1, 5⟩⟩ none)]) ∧
    parseSrc "/fill 1 2" =
      .ok (Function.mk [.command (StmtCommand.mk (some ⟨.slash, ⟨0, 1⟩⟩)
        ⟨"fill", ⟨1, 5⟩⟩
        (some [.lit (.int ⟨1, ⟨6, 7⟩⟩), .lit (.int ⟨2, ⟨8, 9⟩⟩)]))]) ∧
    (∀ fuel ts cmd rest, StmtCommand.parse fuel ts = .ok (cmd, rest) →
      cmd.arguments ≠ some [] ∧
      cmd.slash = (extractTokenOpt .slash ts).1 ∧
      (cmd.arguments = none ↔
        Ident.parse (extractTokenOpt .slash ts).2 = .ok (cmd.ident, []))) := by
  refine ⟨rfl, rfl, ?_⟩
  intro fuel ts cmd rest h
  cases fuel with
  | zero => simp [StmtCommand.parse] at h
  | succ f =>
    rw [StmtCommand.parse] at h
    rcases hI : Ident.parse (extractTokenOpt .slash ts).2 with e | ⟨id, ts2⟩ <;>
      rw [hI] at h
    · simp [pbind] at h
    · simp only [pbind] at h
      rcases ts2 with _ | ⟨t, rest2⟩
      · simp only [Except.ok.injEq, Prod.mk.injEq] at h
        obtain ⟨rfl, rfl⟩ := h
        simp [hI]
      · rcases hA : StmtCommand.parseArgs f (t :: rest2) with e | ⟨args, ts3⟩ <;>
          simp only [hA, pbind] at h
        · exact absurd h (by simp)
        · simp only [Except.ok.injEq, Prod.mk.injEq] at h
          obtain ⟨rfl, rfl⟩ := h
          have hne := StmtCommand.parseArgs_ne_nil f (t :: rest2) args ts3 hA
          refine ⟨by simpa using hne, rfl, ?_⟩
          simp [hI]

/-- C7 witness: the general clause applied to `/kill`'s token stream. -/
theorem c7_witness :
    (StmtCommand.mk (some ⟨.slash, ⟨0, 1⟩⟩) ⟨"kill", ⟨1, 5⟩⟩
        (none : Option (List Expr))).arguments ≠ some [] ∧
    (StmtCommand.mk (some ⟨.slash, ⟨0, 1⟩⟩) ⟨"kill", ⟨1, 5⟩⟩
        (none : Option (List Expr))).slash =
      (extractTokenOpt .slash (lex "/kill")).1 ∧
    ((StmtCommand.mk (some ⟨.slash, ⟨0, 1⟩⟩) ⟨"kill", ⟨1, 5⟩⟩
        (none : Option (List Expr))).arguments = none ↔
      Ident.parse (extractTokenOpt .slash (lex "/kill")).2 =
        .ok ((StmtCommand.mk (some ⟨.slash, ⟨0, 1⟩⟩) ⟨"kill", ⟨1, 5⟩⟩
          (none : Option (List Expr))).ident, [])) :=
  c7_command_arguments.2.2 9 (lex "/kill")
    (StmtCommand.mk (some ⟨.slash, ⟨0, 1⟩⟩) ⟨"kill", ⟨1, 5⟩⟩ none) [] rfl

/-- C8: for every input whose first lexed token is a line comment, the
statement parses to a `Comment` whose stored text is the comment's source
slice with the leading `#` characters and surrounding whitespace stripped
and whose span is the comment token's span; the comment slice starts at
`#` and extends up to but excluding the next newline or the end of input;
and `# hello` parses to one `Comment` statement with text `hello`. -/
theorem c8_comment_statement :
    parseSrc "# hello" = .ok (Function.mk [.comment ⟨"hello", ⟨0, 7⟩⟩]) ∧
    (∀ (s v : String) (sp : Span) (rest : List LexItem) (f : Nat),
      lex s = .ok ⟨.comment v, sp⟩ :: rest →
      Stmt.parse (f + 1) (lex s) = .ok (.comment ⟨v, sp⟩, rest) ∧
      v = commentValue ((s.toList.drop sp.start).take (sp.stop - sp.start)) ∧
      ((s.toList.drop sp.start).take (sp.stop - sp.start)).head? = some '#' ∧
      (sp.stop = s.toList.length ∨
        (s.toList.drop sp.stop).head? = some '\n')) := by
  refine ⟨rfl, ?_⟩
  intro s v sp rest f h
  refine ⟨by rw [h]; rfl, ?_⟩
  unfold lex at h
  obtain ⟨n, hstep, hrest⟩ :=
    lexGo_first s.length s.toList 0 (.ok ⟨.comment v, sp⟩) rest h
  obtain ⟨len, pr, hb, hsp, hn⟩ := lexStep_ok_inv s.toList 0 (.comment v) sp n hstep
  obtain ⟨hmc, hv⟩ := best_ok_comment_src _ len pr v hb
  obtain ⟨r, hr, hm0, hlen⟩ := matchComment_inv _ len hmc
  have hwle : (s.toList.takeWhile whitespaceChar).length ≤ s.toList.length :=
    takeWhileLen_le _ _
  have hmle : (r.takeWhile (fun x => x ≠ '\n')).length ≤ r.length :=
    takeWhileLen_le _ _
  have hstart : sp.start = (s.toList.takeWhile whitespaceChar).length := by
    rw [hsp]
    simp
  have hstop : sp.stop = (s.toList.takeWhile whitespaceChar).length + len := by
    rw [hsp]
    simp
  have hdiff : sp.stop - sp.start = len := by omega
  have hslice : (s.toList.drop sp.start).take (sp.stop - sp.start) =
      (s.toList.drop (s.toList.takeWhile whitespaceChar).length).take len := by
    rw [hdiff, hstart]
  have hlencs : s.toList.length =
      (s.toList.takeWhile whitespaceChar).length + 1 + r.length := by
    have h1 := congrArg List.length hr
    rw [List.length_drop] at h1
    simp only [List.length_cons] at h1
    omega
  refine ⟨by rw [hslice]; exact hv, ?_, ?_⟩
  · rw [hslice, hr, hlen,
      Nat.add_comm 1 (r.takeWhile (fun x => x ≠ '\n')).length,
      List.take_succ_cons]
    rfl
  · have hdrop : s.toList.drop sp.stop =
        r.drop (r.takeWhile (fun x => x ≠ '\n')).length := by
      rw [hstop, hlen, ← List.drop_drop, hr,
        Nat.add_comm 1 (r.takeWhile (fun x => x ≠ '\n')).length,
        List.drop_succ_cons]
    rw [hdrop, drop_takeWhileLen]
    rcases hhd : (r.dropWhile (fun x => x ≠ '\n')).head? with _ | a
    · left
      have hnil : r.dropWhile (fun x => x ≠ '\n') = [] := by
        rcases hdw : r.dropWhile (fun x => x ≠ '\n') with _ | ⟨b, t⟩
        · rfl
        · rw [hdw] at hhd
          simp at hhd
      have hde : r.drop ((r.takeWhile (fun x => x ≠ '\n')).length) = [] := by
        rw [drop_takeWhileLen, hnil]
      have hge := List.drop_eq_nil_iff.mp hde
      rw [hstop, hlen, hlencs]
      omega
    · right
      have ha := head_dropWhile_false _ r a hhd
      simp at ha
      exact congrArg some ha

/-- C8 witness: the general clause at the input `"  # hi"` (whitespace,
then a comment running to the end of input). -/
theorem c8_witness :
    Stmt.parse 3 (lex "  # hi") = .ok (.comment ⟨"hi", ⟨2, 6⟩⟩, []) ∧
    "hi" = commentValue
      ((("  # hi".toList.drop (2 : Nat)).take ((6 : Nat) - 2))) ∧
    ((("  # hi".toList.drop (2 : Nat)).take ((6 : Nat) - 2))).head? =
      some '#' ∧
    ((6 : Nat) = "  # hi".toList.length ∨
      ("  # hi".toList.drop (6 : Nat)).head? = some '\n') := by
  have := c8_comment_statement.2 "  # hi" "hi" ⟨2, 6⟩ [] 2 rfl
  exact this

/-- C10: for every input whose first lexed token is a quoted string, the
token's stored value is the entire matched slice including both
surrounding double quotes; `LitString::parse` copies that value verbatim
(no quote stripping at literal construction); and the empty quoted string
`""` does not lex as a string token at all — both quote characters are
unrecognized-character lex errors. -/
theorem c10_string_token_keeps_quotes :
    (∀ (s v : String) (sp : Span) (rest : List LexItem),
      lex s = .ok ⟨.string v, sp⟩ :: rest →
      v = String.mk ((s.toList.drop sp.start).take (sp.stop - sp.start)) ∧
      ((s.toList.drop sp.start).take (sp.stop - sp.start)).head? =
        some '"' ∧
      ((s.toList.drop sp.start).take (sp.stop - sp.start)).getLast? =
        some '"') ∧
    (∀ (v : String) (sp : Span) (ts : List LexItem),
      LitString.parse (.ok ⟨.string v, sp⟩ :: ts) = .ok (⟨v, sp⟩, ts)) ∧
    lex "\"\"" = [.error ⟨⟨0, 1⟩, .unknown⟩, .error ⟨⟨1, 2⟩, .unknown⟩] := by
  refine ⟨?_, fun v sp ts => rfl, rfl⟩
  intro s v sp rest h
  unfold lex at h
  obtain ⟨n, hstep, hrest⟩ :=
    lexGo_first s.length s.toList 0 (.ok ⟨.string v, sp⟩) rest h
  obtain ⟨len, pr, hb, hsp, hn⟩ := lexStep_ok_inv s.toList 0 (.string v) sp n hstep
  obtain ⟨hms, hv⟩ := best_ok_string_src _ len pr v hb
  obtain ⟨r, hr, hm0, hq, hlen⟩ := matchString_inv _ len hms
  have hmle : (r.takeWhile (fun x => x ≠ '"')).length ≤ r.length :=
    takeWhileLen_le _ _
  have hstart : sp.start = (s.toList.takeWhile whitespaceChar).length := by
    rw [hsp]
    simp
  have hstop : sp.stop = (s.toList.takeWhile whitespaceChar).length + len := by
    rw [hsp]
    simp
  have hdiff : sp.stop - sp.start = len := by omega
  have hslice : (s.toList.drop sp.start).take (sp.stop - sp.start) =
      (s.toList.drop (s.toList.takeWhile whitespaceChar).length).take len := by
    rw [hdiff, hstart]
  refine ⟨by rw [hslice]; exact hv, ?_, ?_⟩
  · rw [hslice, hr, hlen]
    rw [show (r.takeWhile (fun x => x ≠ '"')).length + 2 =
      ((r.takeWhile (fun x => x ≠ '"')).length + 1) + 1 from rfl,
      List.take_succ_cons]
    rfl
  · rcases r with _ | ⟨b, r2⟩
    · simp at hm0
    · have hg := getLast_take_of_drop_head (b :: r2)
        ((((b :: r2).takeWhile (fun x => x ≠ '"'))).length) '"' hq
      rw [hslice, hr, hlen]
      rw [show ((b :: r2).takeWhile (fun x => x ≠ '"')).length + 2 =
        (((b :: r2).takeWhile (fun x => x ≠ '"')).length + 1) + 1 from rfl,
        List.take_succ_cons]
      rw [List.take_succ_cons] at hg
      rcases hg2 : r2.take (((b :: r2).takeWhile (fun x => x ≠ '"')).length)
        with _ | ⟨c, u⟩
      · rw [hg2] at hg
        simp only [List.take_succ_cons, hg2]
        simpa using hg
      · rw [hg2] at hg
        simp only [List.take_succ_cons, hg2, List.getLast?_cons_cons]
        exact hg

/-- C10 witness: the general clause at the input `"ab"`. -/
theorem c10_witness :
    "\"ab\"" = String.mk
      ((("\"ab\"".toList.drop (0 : Nat)).take ((4 : Nat) - 0))) ∧
    ((("\"ab\"".toList.drop (0 : Nat)).take ((4 : Nat) - 0))).head? =
      some '"' ∧
    ((("\"ab\"".toList.drop (0 : Nat)).take ((4 : Nat) - 0))).getLast? =
      some '"' :=
  c10_string_token_keeps_quotes.1 "\"ab\"" "\"ab\"" ⟨0, 4⟩ [] rfl

/-- C6 counterexample: `..` is a maximal lexeme made entirely of
identifier-class characters (the class contains `.`), it is not a boolean
or numeric literal, yet it lexes as the `..` (`Limit`) token, not as a
bare identifier — the `..` token pattern outranks `Ident` on priority at
equal length; and the all-digit lexeme `9999999999` does not lex as an
int token but as an `InvalidInt` lex error, because its value overflows
`i32`. -/
theorem c6_counterexample_limit_and_overflow :
    (['.', '.'].all identChar = true) ∧
    lex ".." = [.ok ⟨.limit, ⟨0, 2⟩⟩] ∧
    matchInt "9999999999".toList = some 10 ∧
    lex "9999999999" = [.error ⟨⟨0, 10⟩, .invalidInt⟩] :=
  ⟨rfl, rfl, rfl, rfl⟩

/-- C6 amended: for a maximal lexeme (the whole remaining input): a
numeric literal containing a decimal point lexes as a float token; a
numeric literal without one lexes as an int token when its value fits in
`i32` and as an `InvalidInt` lex error otherwise; the exact words `true`
and `false` lex as boolean tokens; and every other identifier-class word
sequence except the exact string `..` lexes as a bare identifier token
(`..` lexes as the `Limit` token). -/
theorem c6_amended_lexeme_classification :
    (∀ cs : List Char, matchFloat cs = some cs.length →
      lexStep cs 0 =
        some (.ok ⟨.float (String.mk cs), ⟨0, cs.length⟩⟩, cs.length)) ∧
    (∀ cs : List Char, matchInt cs = some cs.length →
      -2147483648 ≤ decodeInt cs → decodeInt cs ≤ 2147483647 →
      lexStep cs 0 =
        some (.ok ⟨.int (decodeInt cs), ⟨0, cs.length⟩⟩, cs.length)) ∧
    (∀ cs : List Char, matchInt cs = some cs.length →
      ¬(-2147483648 ≤ decodeInt cs ∧ decodeInt cs ≤ 2147483647) →
      lexStep cs 0 =
        some (.error ⟨⟨0, cs.length⟩, .invalidInt⟩, cs.length)) ∧
    (lex "true" = [.ok ⟨.bool true, ⟨0, 4⟩⟩] ∧
      lex "false" = [.ok ⟨.bool false, ⟨0, 5⟩⟩]) ∧
    (∀ cs : List Char, cs ≠ [] → (∀ c ∈ cs, identChar c = true) →
      matchFloat cs ≠ some cs.length → matchInt cs ≠ some cs.length →
      cs ≠ ['t', 'r', 'u', 'e'] → cs ≠ ['f', 'a', 'l', 's', 'e'] →
      cs ≠ ['.', '.'] →
      lexStep cs 0 =
        some (.ok ⟨.ident (String.mk cs), ⟨0, cs.length⟩⟩, cs.length)) := by
  refine ⟨?_, ?_, ?_, ⟨rfl, rfl⟩, ?_⟩
  · intro cs hF
    have hbest := best_float_full cs hF
    obtain ⟨pre, post, hpre, hpost, hpne, hshape⟩ := matchFloat_full_shape cs hF
    have hw0 : (cs.takeWhile whitespaceChar).length = 0 := by
      rcases hshape with hsh | hsh
      · rcases pre with _ | ⟨d, pre2⟩
        · simp only [List.nil_append] at hsh
          rw [hsh]
          exact ws_len_zero_of_head _ _ (by decide)
        · simp only [List.cons_append] at hsh
          rw [hsh]
          exact ws_len_zero_of_head _ _
            (ws_false_of_digit d (hpre d (List.mem_cons_self d pre2)))
      · rw [hsh]
        exact ws_len_zero_of_head _ _ (by decide)
    have hne : cs ≠ [] := by
      rcases hshape with hsh | hsh <;> rw [hsh] <;> simp
    rcases cs with _ | ⟨c, r⟩
    · exact absurd rfl hne
    · unfold lexStep
      rw [hw0, List.drop_zero]
      simp [hbest]
  · intro cs hI hlo hhi
    have hbest := best_int_full cs hI
    obtain ⟨ds, hds, hdsne, hshape⟩ := matchInt_full_shape cs hI
    have hw0 : (cs.takeWhile whitespaceChar).length = 0 := by
      rcases hshape with hsh | hsh
      · rcases hds2 : ds with _ | ⟨d, ds2⟩
        · exact absurd hds2 hdsne
        · rw [hsh, hds2]
          exact ws_len_zero_of_head _ _ (ws_false_of_digit d
            (hds d (by rw [hds2]; exact List.mem_cons_self d ds2)))
      · rw [hsh]
        exact ws_len_zero_of_head _ _ (by decide)
    have hdk : decodeIntKind cs = .ok (.int (decodeInt cs)) := by
      simp only [decodeIntKind]
      rw [if_pos ⟨hlo, hhi⟩]
    rw [hdk] at hbest
    have hne : cs ≠ [] := by
      rcases hshape with hsh | hsh <;> rw [hsh]
      · exact hdsne
      · simp
    rcases cs with _ | ⟨c, r⟩
    · exact absurd rfl hne
    · unfold lexStep
      rw [hw0, List.drop_zero]
      simp [hbest]
  · intro cs hI hbad
    have hbest := best_int_full cs hI
    obtain ⟨ds, hds, hdsne, hshape⟩ := matchInt_full_shape cs hI
    have hw0 : (cs.takeWhile whitespaceChar).length = 0 := by
      rcases hshape with hsh | hsh
      · rcases hds2 : ds with _ | ⟨d, ds2⟩
        · exact absurd hds2 hdsne
        · rw [hsh, hds2]
          exact ws_len_zero_of_head _ _ (ws_false_of_digit d
            (hds d (by rw [hds2]; exact List.mem_cons_self d ds2)))
      · rw [hsh]
        exact ws_len_zero_of_head _ _ (by decide)
    have hdk : decodeIntKind cs = .error .invalidInt := by
      simp only [decodeIntKind]
      rw [if_neg hbad]
    rw [hdk] at hbest
    have hne : cs ≠ [] := by
      rcases hshape with hsh | hsh <;> rw [hsh]
      · exact hdsne
      · simp
    rcases cs with _ | ⟨c, r⟩
    · exact absurd rfl hne
    · unfold lexStep
      rw [hw0, List.drop_zero]
      simp [hbest]
  · intro cs hne hall hnf hni hnt hnfa hnl
    have hbest := best_ident_full cs hne hall hnf hni hnt hnfa hnl
    rcases cs with _ | ⟨c, r⟩
    · exact absurd rfl hne
    · have hw0 : ((c :: r).takeWhile whitespaceChar).length = 0 :=
        ws_len_zero_of_head _ _
          (ws_false_of_ident c (hall c (List.mem_cons_self c r)))
      unfold lexStep
      rw [hw0, List.drop_zero]
      simp [hbest]

/-- C6 amended witness: each clause at a concrete maximal lexeme. -/
theorem c6_amended_witness :
    lexStep "1.5".toList 0 = some (.ok ⟨.float "1.5", ⟨0, 3⟩⟩, 3) ∧
    lexStep "42".toList 0 = some (.ok ⟨.int 42, ⟨0, 2⟩⟩, 2) ∧
    lexStep "9999999999".toList 0 =
      some (.error ⟨⟨0, 10⟩, .invalidInt⟩, 10) ∧
    lexStep "abc".toList 0 = some (.ok ⟨.ident "abc", ⟨0, 3⟩⟩, 3) :=
  ⟨c6_amended_lexeme_classification.1 "1.5".toList rfl,
   c6_amended_lexeme_classification.2.1 "42".toList rfl (by decide) (by decide),
   c6_amended_lexeme_classification.2.2.1 "9999999999".toList rfl (by decide),
   c6_amended_lexeme_classification.2.2.2.2 "abc".toList (by decide)
     (by decide) (by decide) (by decide) (by decide) (by decide) (by decide)⟩

end Areole